import Mathlib

/-
Verification development for the mining prediction service (src/agent.py).

The parser `parse_agent_response`, the request orchestrator of the
`/predict_and_recommend` endpoint, the `predict_mining_target` tool and the
`/end_session/{user_id}` endpoint are shallowly embedded over `List Char`.
Python strings become `List Char`; Python floats that the parser only ever
produces by reading finite decimal numerals and compares for equality are
modelled as exact rationals; fallible code returns `Option` or `Except`.
-/

set_option maxRecDepth 8000

/- Python's regex class \s on the ASCII fragment the service handles. -/
def isPySpace (c : Char) : Bool :=
  c == ' ' || c == '\t' || c == '\n' || c == '\r' || c == '\x0b' || c == '\x0c'

/- Character class of the regex [\d\.]. -/
def isDigitOrDot (c : Char) : Bool := c.isDigit || c == '.'

/- s starts with the pattern (list version of str.startswith). -/
def lstartsWith : List Char → List Char → Bool
  | [], _ => true
  | _ :: _, [] => false
  | p :: ps, c :: cs => p == c && lstartsWith ps cs

/- Python's substring containment (pat in s). -/
def containsSub (pat : List Char) : List Char → Bool
  | [] => lstartsWith pat []
  | c :: cs => lstartsWith pat (c :: cs) || containsSub pat cs

/- Python's text.split(sep, 1) for a non-empty sep, as the pair of pieces
around the first occurrence; none when sep does not occur. -/
def splitOnce (pat : List Char) : List Char → Option (List Char × List Char)
  | [] => if lstartsWith pat [] then some ([], []) else none
  | c :: cs =>
    if lstartsWith pat (c :: cs) then some ([], (c :: cs).drop pat.length)
    else (splitOnce pat cs).map fun p => (c :: p.1, p.2)

/- Python's str.strip() on ASCII whitespace. -/
def stripChars (s : List Char) : List Char :=
  ((s.dropWhile isPySpace).reverse.dropWhile isPySpace).reverse

/- Value of a decimal digit character. -/
def digitVal (c : Char) : ℕ := c.toNat - 48

/- Numeric value of a digit string, most significant first. -/
def natOfDigits (ds : List Char) : ℕ := ds.foldl (fun a c => 10 * a + digitVal c) 0

/- Python float() applied to a token drawn from [\d\.]+: it succeeds exactly
when the token has at least one digit and at most one dot, and then denotes
the evident decimal value. -/
def decCore? (t : List Char) : Option ℚ :=
  if t.all isDigitOrDot ∧ t.any (fun c => c.isDigit) ∧ t.count '.' ≤ 1 then
    match splitOnce (['.']) t with
    | none => some (natOfDigits t)
    | some (ip, fp) => some ((natOfDigits ip : ℚ) + (natOfDigits fp : ℚ) / 10 ^ fp.length)
  else none

/- Split at the first exponent marker e/E. -/
def splitExp : List Char → Option (List Char × List Char)
  | [] => none
  | c :: cs =>
    if c == 'e' || c == 'E' then some ([], cs)
    else (splitExp cs).map fun p => (c :: p.1, p.2)

/- Strip one leading sign. -/
def parseSign : List Char → ℤ × List Char
  | [] => (1, [])
  | c :: r => if c == '+' then (1, r) else if c == '-' then (-1, r) else (1, c :: r)

/- Digit-string value, requiring at least one digit. -/
def digitsVal? (t : List Char) : Option ℕ :=
  if t ≠ [] ∧ t.all (fun c => c.isDigit) then some (natOfDigits t) else none

/- The value of a Python float produced by float() on a string: a finite
rational of the decimal fragment, a signed infinity, or nan. -/
inductive PyF where
  | fin (q : ℚ)
  | inf (neg : Bool)
  | nan
deriving DecidableEq

/- ASCII lowercasing of one character, as Python's case-insensitive float()
spellings use it. -/
def lowChar (c : Char) : Char :=
  if 65 ≤ c.toNat ∧ c.toNat ≤ 90 then Char.ofNat (c.toNat + 32) else c

/- Case-insensitive comparison of s against a lowercase spelling. -/
def lowerEq (s t : List Char) : Bool := (s.map lowChar) == t

/- Python float() on a general cleaned string: optional surrounding
whitespace, optional sign, then a decimal mantissa with optional signed
exponent, or one of the case-insensitive special spellings inf, infinity,
nan (which float() accepts: an infinity then crashes the int() coercion of
the code). Underscored digit groups, and magnitudes beyond the double
range whose float() overflows to an infinity, are outside the decimal
fragment modelled here. -/
def pyFloat? (s : List Char) : Option PyF :=
  let t := stripChars s
  let sg := (parseSign t).1
  let t1 := (parseSign t).2
  match splitExp t1 with
  | none =>
    match decCore? t1 with
    | some q => some (.fin ((sg : ℚ) * q))
    | none =>
      if lowerEq t1 (("inf").data) || lowerEq t1 (("infinity").data) then
        some (.inf (sg == -1))
      else if lowerEq t1 (("nan").data) then some .nan
      else none
  | some (m, ex) =>
    match decCore? m, digitsVal? (parseSign ex).2 with
    | some q, some n => some (.fin ((sg : ℚ) * q * (10 : ℚ) ^ ((parseSign ex).1 * (n : ℤ))))
    | _, _ => none

/- Python int() applied to a float: truncation toward zero. -/
def ratTrunc (q : ℚ) : ℤ := if 0 ≤ q then Int.floor q else -Int.floor (-q)

/- The protocol delimiters and labels of the strict response format. -/
def ENDAc : List Char := ("---END_ANALYSIS---").data
def STARTRc : List Char := ("---START_RECOMMENDATION---").data
def TTEc : List Char := ("Target_Tonase_Ekstrak").data
def PKc : List Char := ("Prediksi_Kontrol").data
def SKc : List Char := ("Selisih_Kontrol").data

/- re.search(label ++ ':' ++ \s* ++ ([\d\.]+), s): leftmost occurrence of the
label that is followed, after optional whitespace, by a non-empty run of
digits and dots; the captured run. \s and [\d\.] are disjoint, so the
engine's backtracking never produces a different match. -/
def numRunAfter (s : List Char) : List Char :=
  (s.dropWhile isPySpace).takeWhile isDigitOrDot

def searchLabelNum (label : List Char) : List Char → Option (List Char)
  | [] => none
  | c :: cs =>
    if lstartsWith (label ++ [':']) (c :: cs) then
      let run := numRunAfter ((c :: cs).drop (label.length + 1))
      if run.isEmpty then searchLabelNum label cs else some run
    else searchLabelNum label cs

/- The three analysis labels, in the alternation order of the re.sub
pattern stripping them from the analysis text. -/
def anLabels : List (List Char) := [TTEc, PKc, SKc]

/- One match of (label):\s*[\d\.]+ anchored at the head of s; returns the
rest of the input after the match. -/
def matchSubAt (s : List Char) : Option (List Char) :=
  anLabels.findSome? fun l =>
    if lstartsWith (l ++ [':']) s then
      let rest := (s.drop (l.length + 1)).dropWhile isPySpace
      let run := rest.takeWhile isDigitOrDot
      if run.isEmpty then none else some (rest.drop run.length)
    else none

/- re.sub of the labelled numeric lines with the empty string, fuelled by
the input length (every step consumes at least one character). -/
def subLabelsF : ℕ → List Char → List Char
  | 0, s => s
  | _ + 1, [] => []
  | n + 1, c :: cs =>
    match matchSubAt (c :: cs) with
    | some rest => subLabelsF n rest
    | none => c :: subLabelsF n cs

def subLabels (s : List Char) : List Char := subLabelsF s.length s

/- Python's text.split(sep) with all occurrences, fuelled by length. -/
def splitFullF (pat : List Char) : ℕ → List Char → List (List Char)
  | 0, s => [s]
  | n + 1, s =>
    match splitOnce pat s with
    | none => [s]
    | some (a, b) => a :: splitFullF pat n b

def splitFullOn (pat : List Char) (s : List Char) : List (List Char) :=
  splitFullF pat s.length s

/- The recommendation labels in the alternation order of the findall
pattern (Truk|Ekskavator|Operator|Cuaca|Prediksi|Selisih|Alasan). -/
def recLabels : List (List Char) :=
  [("Truk").data, ("Ekskavator").data, ("Operator").data, ("Cuaca").data,
   ("Prediksi").data, ("Selisih").data, ("Alasan").data]

/- The first characters of the seven recommendation labels; the findall
pattern can only match at a position carrying one of them. -/
def labelHead (c : Char) : Bool :=
  c == 'T' || c == 'E' || c == 'O' || c == 'C' || c == 'P' || c == 'S' || c == 'A'

/- The \s*([^\n]+) tail of the findall pattern, tried at offset k of s with
the greedy whitespace run backtracking downward; yields the captured group
and the rest of the input after the match. -/
def tryVal (t : List Char) : Option (List Char × List Char) :=
  match t with
  | [] => none
  | c :: _ =>
    if c == '\n' then none
    else some (t.takeWhile (fun x => !(x == '\n')), t.dropWhile (fun x => !(x == '\n')))

def backtrackVal : ℕ → List Char → Option (List Char × List Char)
  | 0, s => tryVal s
  | k + 1, s =>
    match tryVal (s.drop (k + 1)) with
    | some r => some r
    | none => backtrackVal k s

def valueAfter (s : List Char) : Option (List Char × List Char) :=
  backtrackVal (s.takeWhile isPySpace).length s

/- One findall match anchored at the head of s: the first alternation label
whose literal, a colon, and a capturable value follow. -/
def matchParamAt (s : List Char) : Option (List Char × List Char × List Char) :=
  recLabels.findSome? fun l =>
    if lstartsWith (l ++ [':']) s then
      (valueAfter (s.drop (l.length + 1))).map fun p => (l, p.1, p.2)
    else none

/- re.findall of the label/value pairs over a block, fuelled by length. -/
def findParamsF : ℕ → List Char → List (List Char × List Char)
  | 0, _ => []
  | n + 1, s =>
    match matchParamAt s with
    | some (l, g, rest) => (l, g) :: findParamsF n rest
    | none => findParamsF n s.tail

def findParams (s : List Char) : List (List Char × List Char) := findParamsF s.length s

/- re.search(Rekomendasi \d: (.*), block): the title capture of the leftmost
match, where . does not cross newlines. -/
def matchTitleAt (s : List Char) : Option (List Char) :=
  if lstartsWith (("Rekomendasi ").data) s then
    match s.drop 12 with
    | d :: c1 :: c2 :: rest =>
      if d.isDigit && c1 == ':' && c2 == ' ' then
        some (rest.takeWhile (fun x => !(x == '\n')))
      else none
    | _ => none
  else none

def searchTitle : List Char → Option (List Char)
  | [] => none
  | c :: cs =>
    match matchTitleAt (c :: cs) with
    | some t => some t
    | none => searchTitle cs

/- A value held in the per-block dict: the coercion keeps an int, a
finite float, a float infinity or nan (which float() on inf/nan spellings
produces for the float-coerced keys), or falls back to the cleaned raw
string. -/
inductive FieldVal where
  | intV (n : ℤ)
  | floatV (q : ℚ)
  | infV (neg : Bool)
  | nanV
  | strV (s : List Char)
deriving DecidableEq

/- The mutable dict built per recommendation block, before the title and
the rationale default are accounted for; a none field is an absent key. -/
structure RecData where
  trucks : Option FieldVal := none
  excavators : Option FieldVal := none
  operators : Option FieldVal := none
  weather : Option FieldVal := none
  predicted_tonnage : Option FieldVal := none
  difference_from_target : Option FieldVal := none
  rationale : Option (List Char) := none
deriving DecidableEq

/- value.replace('Ton', ''), fuelled by length. -/
def removeTonF : ℕ → List Char → List Char
  | 0, s => s
  | _ + 1, [] => []
  | n + 1, c :: cs =>
    if lstartsWith (("Ton").data) (c :: cs) then removeTonF n (cs.drop 2)
    else c :: removeTonF n cs

def removeTon (s : List Char) : List Char := removeTonF s.length s

/- cleaned_value = value.replace('Ton', '').replace(',', '').strip() -/
def cleanValue (v : List Char) : List Char :=
  stripChars ((removeTon v).filter (fun c => !(c == ',')))

/- int(float(cleaned)): a finite value truncates toward zero; a ValueError
of float() (junk string) or of int() (nan) is caught by the except
ValueError at src/agent.py line 226 and falls back to the cleaned string;
but an infinite value makes int() raise OverflowError, which that clause
does not catch. none models the exception propagating out of
parse_agent_response. -/
def coerceNum (v : List Char) : Option FieldVal :=
  match pyFloat? v with
  | some (.fin q) => some (.intV (ratTrunc q))
  | some (.inf _) => none
  | some .nan => some (.strV v)
  | none => some (.strV v)

/- float(cleaned): the float value is stored as-is (finite, infinite or
nan); a ValueError falls back to the cleaned string. -/
def coerceFloat (v : List Char) : FieldVal :=
  match pyFloat? v with
  | some (.fin q) => .floatV q
  | some (.inf n) => .infV n
  | some .nan => .nanV
  | none => .strV v

/- One iteration of the for key, value loop: map the label through the
fixed table and assign the coerced value, overwriting earlier entries;
none is the uncaught OverflowError of an int-coerced infinite value. -/
def applyParam (d : RecData) (p : List Char × List Char) : Option RecData :=
  let cv := cleanValue p.2
  if p.1 == ("Truk").data then (coerceNum cv).map fun x => { d with trucks := some x }
  else if p.1 == ("Ekskavator").data then
    (coerceNum cv).map fun x => { d with excavators := some x }
  else if p.1 == ("Operator").data then
    (coerceNum cv).map fun x => { d with operators := some x }
  else if p.1 == ("Cuaca").data then some { d with weather := some (.strV cv) }
  else if p.1 == ("Prediksi").data then
    some { d with predicted_tonnage := some (coerceFloat cv) }
  else if p.1 == ("Selisih").data then
    some { d with difference_from_target := some (coerceFloat cv) }
  else if p.1 == ("Alasan").data then some { d with rationale := some cv }
  else some d

/- The assignment loop over the extracted pairs, from a starting dict;
none propagates the uncaught exception. -/
def buildDataFrom : RecData → List (List Char × List Char) → Option RecData
  | d, [] => some d
  | d, p :: ps =>
    match applyParam d p with
    | none => none
    | some d2 => buildDataFrom d2 ps

def buildData (ps : List (List Char × List Char)) : Option RecData :=
  buildDataFrom {} ps

def optCount (o : Option FieldVal) : ℕ := if o.isSome then 1 else 0

/- len(data) after the title assignment and the rationale default: one for
the title, one for the rationale, one per present mapped field. -/
def dataSize (d : RecData) : ℕ :=
  2 + optCount d.trucks + optCount d.excavators + optCount d.operators +
    optCount d.weather + optCount d.predicted_tonnage + optCount d.difference_from_target

/- A parsed recommendation record as appended to recommendations_data. -/
structure RecRecord where
  title : List Char
  trucks : Option FieldVal
  excavators : Option FieldVal
  operators : Option FieldVal
  weather : Option FieldVal
  predicted_tonnage : Option FieldVal
  difference_from_target : Option FieldVal
  rationale : List Char
deriving DecidableEq

def fallbackRationale : List Char := ("Alasan tidak tersedia (Gagal parsing).").data

def defaultTitle : List Char := ("Rekomendasi Tanpa Judul").data

/- The body of the per-block loop: strip, skip blank blocks (ok none),
extract the title and the labelled fields, default the rationale, and keep
the record when the dict has more than one key; error is the uncaught
OverflowError of the coercion aborting parse_agent_response. -/
def processBlock (b : List Char) : Except Unit (Option RecRecord) :=
  let b' := stripChars b
  if b'.isEmpty then .ok none
  else
    let title :=
      match searchTitle b' with
      | some t => stripChars t
      | none => defaultTitle
    match buildData (findParams b') with
    | none => .error ()
    | some d =>
      let r : RecRecord :=
        ⟨title, d.trucks, d.excavators, d.operators, d.weather,
          d.predicted_tonnage, d.difference_from_target, d.rationale.getD fallbackRationale⟩
      .ok (if dataSize d > 1 then some r else none)

/- The for-loop over the split blocks, in order: kept records accumulate,
blank or filtered blocks are skipped, and an uncaught exception in any
block aborts the whole loop. -/
def processBlocks : List (List Char) → Except Unit (List RecRecord)
  | [] => .ok []
  | b :: bs =>
    match processBlock b with
    | .error _ => .error ()
    | .ok none => processBlocks bs
    | .ok (some r) => (processBlocks bs).map fun l => r :: l

/- The outcomes of parse_agent_response other than the success dict: the
three returned error dicts by their messages (malformedFormat the missing
END_ANALYSIS tag, numericParse the failure to read the analysis numbers,
incompleteAnalysis the sentinel-zero failure on target tonnage or control
prediction), and raised, which is not a returned dict but an uncaught
exception propagating out of the function: the OverflowError of
int(float(v)) on a recommendation value that float() reads as an infinity,
which the except ValueError at line 226 does not catch. -/
inductive ParseError where
  | malformedFormat
  | numericParse
  | incompleteAnalysis
  | raised
deriving DecidableEq

/- The success dict of parse_agent_response. -/
structure ParseOk where
  initial_analysis_text : List Char
  initial_prediction : ℚ
  target_tonnage : ℤ
  initial_difference : ℚ
  recommendations : List RecRecord
deriving DecidableEq

/- float(match.group(1)) if match else 0.0 -/
def tokFloat? : Option (List Char) → Option ℚ
  | none => some 0
  | some t => decCore? t

/- int(float(match.group(1))) if match else 0 -/
def tokInt? : Option (List Char) → Option ℤ
  | none => some 0
  | some t => (decCore? t).map ratTrunc

/- parse_agent_response (src/agent.py lines 170-244). The recommendation
loop runs before the sentinel check, so an uncaught exception in it
preempts the IncompleteAnalysis error. -/
def parse_agent_response (text : List Char) : Except ParseError ParseOk :=
  match splitOnce ENDAc text with
  | none => .error .malformedFormat
  | some (ap, rr) =>
    match tokFloat? (searchLabelNum PKc ap), tokInt? (searchLabelNum TTEc ap),
        tokFloat? (searchLabelNum SKc ap) with
    | some pv, some tv, some dv =>
      let atext := stripChars (subLabels ap)
      match processBlocks (splitFullOn STARTRc rr) with
      | .error _ => .error .raised
      | .ok recs =>
        if tv = 0 ∨ pv = 0 then .error .incompleteAnalysis
        else .ok ⟨atext, pv, tv, dv, recs⟩
    | _, _, _ => .error .numericParse

/- Module readiness state: whether initialize_agent ran, the value of the
GEMINI_API_KEY environment variable, and whether model.pkl loaded. -/
structure ServiceState where
  miningAgentInit : Bool
  geminiApiKey : Option (List Char)
  modelLoaded : Bool
deriving DecidableEq

def unavailableMsg : List Char := ("Layanan Agent atau Kunci API tidak tersedia.").data

/- The readiness gate of predict_and_recommend (src/agent.py lines 255-259):
raise HTTPException(503, ...) when mining_agent is None or the key is None,
otherwise proceed with the request. -/
def readyCheck (s : ServiceState) : Option (ℕ × List Char) :=
  if s.miningAgentInit = false ∨ s.geminiApiKey = none then some (503, unavailableMsg)
  else none

/- The outcomes of the predict_mining_target tool, by the strings it
returns: model never loaded, empty scenario list, a runtime error during
prediction, or the PREDICTION_RESULTS payload of rows
(id, trucks, excavators, operators, weather, predicted_tonnage). -/
inductive ToolResult where
  | errorModelNotLoaded
  | errorEmptyInput
  | errorPredictRuntime
  | results (rs : List (ℕ × ℚ × ℚ × ℚ × ℚ × ℚ))
deriving DecidableEq

/- round(x, 2); float half-even rounding is modelled as arithmetic rounding
on exact rationals. -/
def round2 (q : ℚ) : ℚ := (Int.floor (q * 100 + 1 / 2) : ℚ) / 100

/- predict_mining_target (src/agent.py lines 45-70); the pickled regression
model is an abstract total function on feature vectors, and an exception
while indexing a short scenario row is the caught runtime-error branch. -/
def predict_mining_target (loadedModel : Option (List (List ℚ) → List ℚ))
    (scenarios : List (List ℚ)) : ToolResult :=
  match loadedModel with
  | none => .errorModelNotLoaded
  | some f =>
    if scenarios.isEmpty then .errorEmptyInput
    else if scenarios.any (fun s => s.length < 4) then .errorPredictRuntime
    else
      .results (((scenarios.zip (f scenarios)).enum).map
        (fun p => (p.1 + 1, p.2.1.getD 0 0, p.2.1.getD 1 0, p.2.1.getD 2 0,
          p.2.1.getD 3 0, round2 p.2.2)))

/- One part of an agent event's content; text is an optional string and
Python truthiness makes both None and the empty string falsy. -/
structure EvPart where
  text : Option (List Char)
deriving DecidableEq

structure EvContent where
  parts : List EvPart
deriving DecidableEq

structure AgentEvent where
  isFinalResponse : Bool
  content : Option EvContent
deriving DecidableEq

/- The inner for-part loop of predict_and_recommend (src/agent.py lines
280-283): skip falsy texts, append the first truthy one, then break. -/
def appendFirstText (acc : List Char) : List EvPart → List Char
  | [] => acc
  | p :: ps =>
    match p.text with
    | some t => if t.isEmpty then appendFirstText acc ps else acc ++ t
    | none => appendFirstText acc ps

/- One event of the run_async stream (src/agent.py lines 274-283): a final
event with a non-None content and a non-empty parts list contributes. -/
def eventStep (acc : List Char) (e : AgentEvent) : List Char :=
  match e.content with
  | some c => if e.isFinalResponse && !c.parts.isEmpty then appendFirstText acc c.parts else acc
  | none => acc

def accumulateFinal (evs : List AgentEvent) : List Char :=
  evs.foldl eventStep []

/- Spec-side readings of an event's content, used to compare the loop
against the specification's description. -/
def partText (p : EvPart) : List Char :=
  match p.text with
  | some t => t
  | none => []

def isTruthyPart (p : EvPart) : Bool :=
  match p.text with
  | some t => !t.isEmpty
  | none => false

def concatTexts (ps : List EvPart) : List Char := ps.foldl (fun a p => a ++ partText p) []

def firstTruthyText (ps : List EvPart) : List Char :=
  match ps.find? isTruthyPart with
  | some p => partText p
  | none => []

/- Session deletion endpoint. -/
structure StatusMsg where
  status : List Char
  message : List Char
deriving DecidableEq

structure SessionKey where
  app : List Char
  user : List Char
  sid : List Char
deriving DecidableEq

def APPc : List Char := ("agents").data

/- Modelled from the spec: the Session Store collaborator (google.adk
InMemorySessionService, outside this repository) maps keys to sessions and
supports create/append/delete; delete_session removes the keyed session and
raises when no such session exists. -/
def delete_session (st : List SessionKey) (k : SessionKey) : Except Unit (List SessionKey) :=
  if k ∈ st then .ok (st.filter (fun x => !(x == k))) else .error ()

def sessionKeyOf (uid : List Char) : SessionKey :=
  ⟨APPc, uid, ("session_").data ++ uid⟩

def successMsg (uid : List Char) : StatusMsg :=
  ⟨("success").data,
    ("Sesi untuk user_id '").data ++ uid ++ ("' berhasil diakhiri.").data⟩

def infoMsg (uid : List Char) : StatusMsg :=
  ⟨("info").data,
    ("Sesi untuk user_id '").data ++ uid ++ ("' tidak ditemukan atau sudah berakhir.").data⟩

/- end_session (src/agent.py lines 306-314): try to delete the derived
session and answer success, downgrading any failure to the info status. -/
def end_session (st : List SessionKey) (uid : List Char) : List SessionKey × StatusMsg :=
  match delete_session st (sessionKeyOf uid) with
  | .ok st' => (st', successMsg uid)
  | .error _ => (st, infoMsg uid)

/- Concrete inputs used by the claims. -/
def c3Text : List Char :=
  ("Kontrol baik.\nTarget_Tonase_Ekstrak: 80\nPrediksi_Kontrol: 75.50\nSelisih_Kontrol: 4.50\n---END_ANALYSIS---\nRekomendasi 1: Tambah Truk\nTruk: 14\nEkskavator: 3\nOperator: 18\nCuaca: 1\nPrediksi: 79.80\nSelisih: 0.20\nAlasan: Penambahan truk mendekati target.\n---START_RECOMMENDATION---\n").data

def c3Weathers (t : List Char) : List (Option FieldVal) :=
  match parse_agent_response t with
  | .ok r => r.recommendations.map (fun rec => rec.weather)
  | .error _ => []

def c2Text : List Char :=
  ("ok\nTarget_Tonase_Ekstrak: 7\nPrediksi_Kontrol: 5\n---END_ANALYSIS---\nRekomendasi 1: Solo\n").data

def c10TextA : List Char :=
  ("Target_Tonase_Ekstrak: 1.2.3\n---END_ANALYSIS---\n").data

def c10TextB : List Char :=
  ("Prediksi_Kontrol: .\n---END_ANALYSIS---\n").data

def c5TextA : List Char := ("Prediksi_Kontrol: 5").data

def c5TextB : List Char :=
  ("Prediksi_Kontrol: 5\nSelisih_Kontrol: 1.2.3\n---END_ANALYSIS---\n").data

def c7CrashText : List Char :=
  ("Kontrol.---END_ANALYSIS---\nRekomendasi 1: A\nTruk: inf\n").data

def c5WitText : List Char :=
  ("Prediksi_Kontrol: 75.5\n---END_ANALYSIS---\nRekomendasi 1: a\nTruk: 5\nAlasan: b\n").data

def c4Event : AgentEvent :=
  ⟨true, some ⟨[⟨some (("A").data)⟩, ⟨some (("B").data)⟩]⟩⟩

/- Spec sections 3 and 6: the abstract AnalysisResult data model and the
Strict Response Format renderer, written from the spec's words for the
round-trip property. A numeric value is given as a mantissa/exponent pair
m * 10^(-e), so every value has a finite decimal spelling. -/
structure Dec where
  m : ℕ
  e : ℕ
deriving DecidableEq

def Dec.val (d : Dec) : ℚ := (d.m : ℚ) / 10 ^ d.e

def digitChar (n : ℕ) : Char := Char.ofNat (48 + n)

def natDigitsAux : ℕ → ℕ → List Char
  | 0, _ => []
  | f + 1, n => if n < 10 then [digitChar n] else natDigitsAux f (n / 10) ++ [digitChar (n % 10)]

def natStr (n : ℕ) : List Char := natDigitsAux (n + 1) n

def padZeros (k : ℕ) (ds : List Char) : List Char := List.replicate (k - ds.length) '0' ++ ds

def renderDec (d : Dec) : List Char :=
  if d.e = 0 then natStr d.m
  else natStr (d.m / 10 ^ d.e) ++ '.' :: padZeros d.e (natStr (d.m % 10 ^ d.e))

/- One recommendation of the data model (scenario plus texts), with its
numbers in decimal form. -/
structure RecInput where
  title : List Char
  trucks : ℕ
  excavators : ℕ
  operators : ℕ
  weather : ℕ
  predicted : Dec
  difference : Dec
  rationale : List Char
deriving DecidableEq

structure AnalysisInput where
  analysisText : List Char
  target : ℕ
  prediction : Dec
  difference : Dec
  recs : List RecInput
deriving DecidableEq

/- A labelled line of the strict format, preceded by its newline. -/
def renderField (l v : List Char) : List Char := '\n' :: (l ++ ':' :: ' ' :: v)

def renderFields : List (List Char × List Char) → List Char
  | [] => []
  | f :: fs => renderField f.1 f.2 ++ renderFields fs

def recFields (r : RecInput) : List (List Char × List Char) :=
  [(("Truk").data, natStr r.trucks), (("Ekskavator").data, natStr r.excavators),
   (("Operator").data, natStr r.operators), (("Cuaca").data, [digitChar r.weather]),
   (("Prediksi").data, renderDec r.predicted), (("Selisih").data, renderDec r.difference),
   (("Alasan").data, r.rationale)]

def renderRecCore (i : ℕ) (r : RecInput) : List Char :=
  (("Rekomendasi ").data ++ natStr i ++ ':' :: ' ' :: r.title) ++ renderFields (recFields r)

def renderRecs : ℕ → List RecInput → List Char
  | _, [] => []
  | i, r :: rs => '\n' :: (renderRecCore i r ++ '\n' :: (STARTRc ++ renderRecs (i + 1) rs))

def renderAnalysis (a : AnalysisInput) : List Char :=
  a.analysisText ++
    renderFields [(TTEc, natStr a.target), (PKc, renderDec a.prediction),
      (SKc, renderDec a.difference)] ++ ['\n']

def renderAnalysisResult (a : AnalysisInput) : List Char :=
  renderAnalysis a ++ ENDAc ++ renderRecs 1 a.recs

/- Free prose of a well-formed AnalysisResult: lowercase letters, blanks
and periods, so it can contain neither protocol delimiters, labelled-line
patterns nor line breaks. -/
def goodChar (c : Char) : Bool := c.isLower || c == ' ' || c == '.'

def goodText (s : List Char) : Bool := s.all goodChar

/- A non-empty string whose two ends carry no whitespace (so stripping is
the identity on it). -/
def edgeSolid (s : List Char) : Bool :=
  !s.isEmpty && !isPySpace (s.headD 'x') && !isPySpace (s.reverse.headD 'x')

def GoodRec (r : RecInput) : Prop :=
  goodText r.title = true ∧ goodText r.rationale = true ∧
    edgeSolid r.rationale = true ∧ r.weather < 3

/- Well-formedness of an AnalysisResult for the round-trip property:
positive target and prediction, weather in the enum, single-line
delimiter-free prose fields, non-empty rationale. -/
def WellFormed (a : AnalysisInput) : Prop :=
  goodText a.analysisText = true ∧ 0 < a.target ∧ 0 < a.prediction.m ∧
    ∀ r ∈ a.recs, GoodRec r

/- The parsed record reproduces the structured numeric values of a
recommendation; the weather enum value comes back as its one-digit
numeral, which the parser stores as a string. -/
def FieldsMatch (pr : RecRecord) (r : RecInput) : Prop :=
  pr.trucks = some (.intV (r.trucks : ℤ)) ∧
  pr.excavators = some (.intV (r.excavators : ℤ)) ∧
  pr.operators = some (.intV (r.operators : ℤ)) ∧
  pr.weather = some (.strV [digitChar r.weather]) ∧
  pr.predicted_tonnage = some (.floatV r.predicted.val) ∧
  pr.difference_from_target = some (.floatV r.difference.val)

instance (r : RecInput) : Decidable (GoodRec r) := by
  unfold GoodRec; infer_instance

instance (a : AnalysisInput) : Decidable (WellFormed a) := by
  unfold WellFormed; infer_instance

instance (pr : RecRecord) (r : RecInput) : Decidable (FieldsMatch pr r) := by
  unfold FieldsMatch; infer_instance

/- A concrete well-formed AnalysisResult used to instantiate the round-trip
property. -/
def c8Example : AnalysisInput :=
  ⟨("kontrol baik.").data, 80, ⟨755, 1⟩, ⟨45, 1⟩,
   [⟨("tambah truk").data, 14, 3, 18, 1, ⟨798, 1⟩, ⟨2, 1⟩,
     ("penambahan truk mendekati target.").data⟩,
    ⟨("kurangi truk").data, 10, 2, 15, 0, ⟨705, 1⟩, ⟨95, 1⟩, ("seimbang.").data⟩]⟩

/- Decidable equality for block-loop and parse results. -/
instance : DecidableEq (Except Unit (Option RecRecord)) := fun x y =>
  match x, y with
  | .error a, .error b => decidable_of_iff (a = b) (by simp)
  | .ok a, .ok b => decidable_of_iff (a = b) (by simp)
  | .error _, .ok _ => .isFalse (by simp)
  | .ok _, .error _ => .isFalse (by simp)

instance : DecidableEq (Except Unit (List RecRecord)) := fun x y =>
  match x, y with
  | .error a, .error b => decidable_of_iff (a = b) (by simp)
  | .ok a, .ok b => decidable_of_iff (a = b) (by simp)
  | .error _, .ok _ => .isFalse (by simp)
  | .ok _, .error _ => .isFalse (by simp)

instance : DecidableEq (Except ParseError ParseOk) := fun x y =>
  match x, y with
  | .error a, .error b => decidable_of_iff (a = b) (by simp)
  | .ok a, .ok b => decidable_of_iff (a = b) (by simp)
  | .error _, .ok _ => .isFalse (by simp)
  | .ok _, .error _ => .isFalse (by simp)

attribute [local semireducible] Rat.add Rat.mul Rat.inv Rat.sub

/-! Helper lemmas. -/

theorem splitOnce_none_iff (pat : List Char) (s : List Char) :
    splitOnce pat s = none ↔ containsSub pat s = false := by
  induction s with
  | nil =>
    unfold splitOnce containsSub
    cases h : lstartsWith pat [] <;> simp [h]
  | cons c cs ih =>
    unfold splitOnce containsSub
    cases h : lstartsWith pat (c :: cs) <;> simp [h, Option.map_eq_none', ih]

theorem dataSize_gt_one (d : RecData) : dataSize d > 1 := by
  unfold dataSize; omega

theorem findParams_nil : findParams [] = [] := rfl

theorem applyParam_rationale (d : RecData) (p : List Char × List Char) (d2 : RecData)
    (hne : p.1 ≠ ("Alasan").data) (h : applyParam d p = some d2) :
    d2.rationale = d.rationale := by
  simp only [applyParam] at h
  split_ifs at h with h1 h2 h3 h4 h5 h6 h7
  · rcases hc : coerceNum (cleanValue p.2) with _ | x <;> rw [hc] at h
    · cases h
    · injection h with h
      subst h
      rfl
  · rcases hc : coerceNum (cleanValue p.2) with _ | x <;> rw [hc] at h
    · cases h
    · injection h with h
      subst h
      rfl
  · rcases hc : coerceNum (cleanValue p.2) with _ | x <;> rw [hc] at h
    · cases h
    · injection h with h
      subst h
      rfl
  · injection h with h
    subst h
    rfl
  · injection h with h
    subst h
    rfl
  · injection h with h
    subst h
    rfl
  · rw [beq_iff_eq] at h7
    exact absurd h7 hne
  · injection h with h
    subst h
    rfl

theorem buildDataFrom_rationale (ps : List (List Char × List Char))
    (h : ∀ p ∈ ps, p.1 ≠ ("Alasan").data) :
    ∀ d d2 : RecData, buildDataFrom d ps = some d2 → d2.rationale = d.rationale := by
  induction ps with
  | nil =>
    intro d d2 hb
    injection hb with hb
    rw [← hb]
  | cons p ps ih =>
    intro d d2 hb
    have hb2 : (match applyParam d p with
        | none => none
        | some x => buildDataFrom x ps) = some d2 := hb
    cases hap : applyParam d p with
    | none =>
      rw [hap] at hb2
      cases hb2
    | some dmid =>
      rw [hap] at hb2
      rw [ih (fun q hq => h q (List.mem_cons_of_mem _ hq)) dmid d2 hb2]
      exact applyParam_rationale d p dmid (h p (List.mem_cons_self _ _)) hap

theorem buildData_rationale_none (ps : List (List Char × List Char)) (d2 : RecData)
    (h : ∀ p ∈ ps, p.1 ≠ ("Alasan").data) (hb : buildData ps = some d2) :
    d2.rationale = none :=
  buildDataFrom_rationale ps h {} d2 hb

theorem appendFirstText_eq (acc : List Char) (ps : List EvPart) :
    appendFirstText acc ps = acc ++ firstTruthyText ps := by
  induction ps generalizing acc with
  | nil => simp [appendFirstText, firstTruthyText]
  | cons p ps ih =>
    obtain ⟨pt⟩ := p
    cases pt with
    | none =>
      have h1 : appendFirstText acc (⟨none⟩ :: ps) = appendFirstText acc ps := rfl
      have h2 : firstTruthyText ((⟨none⟩ : EvPart) :: ps) = firstTruthyText ps := rfl
      rw [h1, h2, ih]
    | some t =>
      cases t with
      | nil =>
        have h1 : appendFirstText acc (⟨some []⟩ :: ps) = appendFirstText acc ps := rfl
        have h2 : firstTruthyText ((⟨some []⟩ : EvPart) :: ps) = firstTruthyText ps := rfl
        rw [h1, h2, ih]
      | cons c cs =>
        have h1 : appendFirstText acc (⟨some (c :: cs)⟩ :: ps) = acc ++ (c :: cs) := rfl
        have h2 : firstTruthyText ((⟨some (c :: cs)⟩ : EvPart) :: ps) = c :: cs := rfl
        rw [h1, h2]

theorem end_session_fst_not_mem (st : List SessionKey) (uid : List Char) :
    sessionKeyOf uid ∉ (end_session st uid).1 := by
  by_cases hmem : sessionKeyOf uid ∈ st <;>
    simp [end_session, delete_session, hmem, List.mem_filter]

theorem end_session_of_not_mem (st : List SessionKey) (uid : List Char)
    (h : sessionKeyOf uid ∉ st) : end_session st uid = (st, infoMsg uid) := by
  simp [end_session, delete_session, h]

/-! Claim theorems. -/

/-- C6: for every input string that does not contain the substring
---END_ANALYSIS---, parse_agent_response fails with the MalformedFormat
error (tag END_ANALYSIS not found), regardless of any other content; and
for every string that does contain it, this error is not produced. -/
theorem c6_missing_delimiter (text : List Char) :
    parse_agent_response text = .error .malformedFormat ↔ containsSub ENDAc text = false := by
  unfold parse_agent_response
  cases h : splitOnce ENDAc text with
  | none =>
    rw [← splitOnce_none_iff]
    simp [h]
  | some p =>
    obtain ⟨ap, rr⟩ := p
    refine iff_of_false ?_ (by rw [← splitOnce_none_iff, h]; simp)
    intro habs
    rcases h1 : tokFloat? (searchLabelNum PKc ap) with _ | pv <;>
      rcases h2 : tokInt? (searchLabelNum TTEc ap) with _ | tv <;>
        rcases h3 : tokFloat? (searchLabelNum SKc ap) with _ | dv <;>
          simp only [h1, h2, h3] at habs <;> first
          | exact absurd habs (by simp)
          | (rcases h4 : processBlocks (splitFullOn STARTRc rr) with e | recs <;>
              simp only [h4] at habs <;> first
              | exact absurd habs (by simp)
              | (split at habs <;> simp_all))

/-- C10: the parser has a third failure mode beyond MalformedFormat and
IncompleteAnalysis: on inputs containing the analysis delimiter in which an
analysis label is followed by a digits-and-dots token that is not a valid
decimal number (1.2.3 after Target_Tonase_Ekstrak, a lone dot after
Prediksi_Kontrol), parse_agent_response fails with the distinct
numeric-parse error. -/
theorem c10_numeric_parse_error :
    parse_agent_response c10TextA = .error .numericParse ∧
    parse_agent_response c10TextB = .error .numericParse ∧
    containsSub ENDAc c10TextA = true ∧ containsSub ENDAc c10TextB = true := by
  refine ⟨?_, ?_, ?_, ?_⟩ <;> decide

/-- C1 counterexample: with the Conversation Agent initialized and the API
key present but the prediction model unloaded, the readiness gate of the
prediction endpoint does not refuse the request with 503, contradicting the
claim that every request arriving while the model is unloaded is refused
with the unavailable signal; the unloaded model instead makes the
predict_mining_target tool return its error string. -/
theorem c1_model_gate_counterexample :
    readyCheck ⟨true, some (("k").data), false⟩ = none ∧
    (⟨true, some (("k").data), false⟩ : ServiceState).modelLoaded = false ∧
    predict_mining_target none [[12, 3, 18, 1]] = .errorModelNotLoaded := by
  refine ⟨?_, rfl, rfl⟩
  unfold readyCheck
  simp

/-- C1 amended: the prediction endpoint refuses a request with the 503
unavailable signal exactly when the Conversation Agent or its API
credential was never initialized; a prediction-model load failure does not
make the endpoint refuse, instead the predict_mining_target tool answers
every call with its model-not-loaded error string. -/
theorem c1_readiness_gate (s : ServiceState) :
    (readyCheck s = some (503, unavailableMsg) ↔
      (s.miningAgentInit = false ∨ s.geminiApiKey = none)) ∧
    (∀ scenarios : List (List ℚ),
      predict_mining_target none scenarios = .errorModelNotLoaded) := by
  constructor
  · unfold readyCheck
    split <;> simp_all
  · intro scenarios
    rfl

/-- C4 counterexample: a final event whose content has two text-bearing
parts A and B accumulates only A, not the concatenation AB of every text
fragment, contradicting the claim that the accumulated response equals the
concatenation of all of the final event's text parts. -/
theorem c4_concat_counterexample :
    accumulateFinal [c4Event] = ("A").data ∧
    concatTexts [⟨some (("A").data)⟩, ⟨some (("B").data)⟩] = ("AB").data ∧
    ("A").data ≠ ("AB").data := by
  refine ⟨?_, ?_, ?_⟩ <;> decide

/-- C4 amended: when consuming the event stream, the orchestrator appends,
for each final event with non-empty content parts, only the text of the
first non-empty text-bearing part of that event, not the concatenation of
all its parts. -/
theorem c4_first_fragment_only (evs : List AgentEvent) :
    accumulateFinal evs =
      evs.foldl (fun acc e =>
        match e.content with
        | some c =>
          if e.isFinalResponse && !c.parts.isEmpty then acc ++ firstTruthyText c.parts else acc
        | none => acc) [] := by
  unfold accumulateFinal
  congr 1
  funext acc e
  unfold eventStep
  cases e.content with
  | none => rfl
  | some c =>
    show (if (e.isFinalResponse && !c.parts.isEmpty) = true then appendFirstText acc c.parts
        else acc) =
      (if (e.isFinalResponse && !c.parts.isEmpty) = true then acc ++ firstTruthyText c.parts
        else acc)
    by_cases hb : (e.isFinalResponse && !c.parts.isEmpty) = true
    · rw [if_pos hb, if_pos hb]
      exact appendFirstText_eq acc c.parts
    · rw [if_neg hb, if_neg hb]

/-- C9: session deletion is idempotent and never errors: the end-session
operation always returns one of the two informational status objects and
never propagates an error; when no session exists for the derived id
session_ plus user_id it leaves the store unchanged and answers the info
status; and a second call in a row always answers as for a missing
session. -/
theorem c9_idempotent_deletion (st : List SessionKey) (uid : List Char)
    (h : sessionKeyOf uid ∉ st) :
    end_session st uid = (st, infoMsg uid) ∧
    (∀ st' : List SessionKey,
      (end_session st' uid).2 = successMsg uid ∨ (end_session st' uid).2 = infoMsg uid) ∧
    (∀ st' : List SessionKey,
      (end_session ((end_session st' uid).1) uid).2 = infoMsg uid) := by
  refine ⟨end_session_of_not_mem st uid h, ?_, ?_⟩
  · intro st'
    unfold end_session delete_session
    split <;> simp
  · intro st'
    rw [end_session_of_not_mem _ _ (end_session_fst_not_mem st' uid)]

/-- C9 witness: the end-session operation at the empty store and a concrete
user id. -/
theorem c9_idempotent_deletion_witness :
    end_session [] (("u").data) = ([], infoMsg (("u").data)) ∧
    (∀ st' : List SessionKey,
      (end_session st' (("u").data)).2 = successMsg (("u").data) ∨
        (end_session st' (("u").data)).2 = infoMsg (("u").data)) ∧
    (∀ st' : List SessionKey,
      (end_session ((end_session st' (("u").data)).1) (("u").data)).2 =
        infoMsg (("u").data)) :=
  c9_idempotent_deletion [] (("u").data) (by simp)

/-- C2 counterexample: on a concrete input whose single recommendation
block yields only a title, the parse succeeds and its recommendations list
contains exactly the record made of that title, all other fields absent and
the rationale defaulted, contradicting the claim that such a record is
never included. -/
theorem c2_title_only_counterexample :
    (parse_agent_response c2Text).toOption.map (fun r => r.recommendations) =
      some [⟨("Solo").data, none, none, none, none, none, none, fallbackRationale⟩] := by
  decide

/-- C2 amended: a block yielding only a title is not discarded: every block
that is non-blank after stripping and whose field coercion raises no
exception produces a record in the recommendations list, because the
rationale default runs before the size filter, and when no labelled field
is extracted that record carries just the title and the defaulted
rationale. (A block whose int-coerced value reads as an infinite float
instead crashes the parse with an uncaught OverflowError.) -/
theorem c2_title_only_kept (b : List Char) (d : RecData) (h : stripChars b ≠ [])
    (hd : buildData (findParams (stripChars b)) = some d) :
    ∃ r : RecRecord, processBlock b = .ok (some r) ∧
      (findParams (stripChars b) = [] →
        r.trucks = none ∧ r.excavators = none ∧ r.operators = none ∧ r.weather = none ∧
          r.predicted_tonnage = none ∧ r.difference_from_target = none ∧
          r.rationale = fallbackRationale) := by
  simp only [processBlock, hd]
  rw [if_neg (by simpa using h), if_pos (dataSize_gt_one d)]
  refine ⟨_, rfl, fun hf => ?_⟩
  rw [hf] at hd
  have hd2 : some ({} : RecData) = some d := hd
  injection hd2 with hd2
  subst hd2
  exact ⟨rfl, rfl, rfl, rfl, rfl, rfl, rfl⟩

/-- C2 amended witness: the title-only block at a concrete input. -/
theorem c2_title_only_kept_witness :
    stripChars (("Rekomendasi 1: Solo").data) ≠ [] ∧
    buildData (findParams (stripChars (("Rekomendasi 1: Solo").data))) = some {} ∧
    ∃ r : RecRecord, processBlock (("Rekomendasi 1: Solo").data) = .ok (some r) ∧
      (findParams (stripChars (("Rekomendasi 1: Solo").data)) = [] →
        r.trucks = none ∧ r.excavators = none ∧ r.operators = none ∧ r.weather = none ∧
          r.predicted_tonnage = none ∧ r.difference_from_target = none ∧
          r.rationale = fallbackRationale) :=
  ⟨by decide, by decide,
    c2_title_only_kept (("Rekomendasi 1: Solo").data) {} (by decide) (by decide)⟩

/-- C7 counterexample: a recommendation block whose single extracted field
is Truk: inf, with no Alasan line, does not parse into a kept record at
all: float("inf") succeeds, int() then raises OverflowError, which the
except ValueError clause does not catch, so parse_agent_response on a text
containing that block raises instead of returning a result — contradicting
the claim that every block with at least one extracted field and no Alasan
still parses successfully. -/
theorem c7_overflow_counterexample :
    findParams (stripChars (("Rekomendasi 1: A\nTruk: inf").data)) =
      [(("Truk").data, ("inf").data)] ∧
    processBlock (("\nRekomendasi 1: A\nTruk: inf\n").data) = .error () ∧
    parse_agent_response c7CrashText = .error .raised := by
  refine ⟨?_, ?_, ?_⟩ <;> decide

/-- C7 amended: a recommendation block from which at least one labelled
field is extracted but no Alasan field, and whose coercions raise no
exception, parses into a kept record whose rationale is exactly the
fallback string Alasan tidak tersedia (Gagal parsing). -/
theorem c7_rationale_default (b : List Char) (ps : List (List Char × List Char))
    (d : RecData) (hp : findParams (stripChars b) = ps) (hne : ps ≠ [])
    (hna : ∀ p ∈ ps, p.1 ≠ ("Alasan").data) (hd : buildData ps = some d) :
    ∃ r : RecRecord, processBlock b = .ok (some r) ∧ r.rationale = fallbackRationale := by
  have hb : stripChars b ≠ [] := by
    intro habs
    rw [habs, findParams_nil] at hp
    exact hne hp.symm
  simp only [processBlock, hp, hd]
  rw [if_neg (by simpa using hb), if_pos (dataSize_gt_one d)]
  refine ⟨_, rfl, ?_⟩
  show d.rationale.getD fallbackRationale = fallbackRationale
  rw [buildData_rationale_none ps d hna hd]
  rfl

/-- C7 amended witness: a concrete block carrying a single Truk field and
no Alasan line. -/
theorem c7_rationale_default_witness :
    findParams (stripChars (("Truk: 5").data)) = [(("Truk").data, ("5").data)] ∧
    buildData [(("Truk").data, ("5").data)] =
      some ⟨some (.intV 5), none, none, none, none, none, none⟩ ∧
    ∃ r : RecRecord, processBlock (("Truk: 5").data) = .ok (some r) ∧
      r.rationale = fallbackRationale :=
  ⟨by decide, by decide,
    c7_rationale_default (("Truk: 5").data) [(("Truk").data, ("5").data)]
      ⟨some (.intV 5), none, none, none, none, none, none⟩
      (by decide) (by decide) (by decide) (by decide)⟩

/-- C5 counterexample: two inputs in which the Target_Tonase_Ekstrak label
is absent yet parse_agent_response does not fail with the IncompleteAnalysis
error: one lacking the analysis delimiter fails with MalformedFormat, and
one containing the delimiter but an invalid Selisih_Kontrol token fails
with the numeric-parse error. -/
theorem c5_sentinel_counterexample :
    searchLabelNum TTEc c5TextA = none ∧
    parse_agent_response c5TextA = .error .malformedFormat ∧
    searchLabelNum TTEc (("Prediksi_Kontrol: 5\nSelisih_Kontrol: 1.2.3\n").data) = none ∧
    parse_agent_response c5TextB = .error .numericParse := by
  refine ⟨?_, ?_, ?_, ?_⟩ <;> decide

/-- C5 amended: for every input containing the analysis delimiter whose
present analysis number tokens are valid decimals and whose recommendation
loop raises no exception, if the target tonnage is absent or parses to 0,
or the control prediction is absent or parses to 0.0, then
parse_agent_response fails with the IncompleteAnalysis error, whatever the
recommendation blocks contain. (The loop runs before the sentinel check,
so an infinite int-coerced recommendation value raises out of the function
first.) -/
theorem c5_sentinel_zero (text ap rr : List Char) (pv : ℚ) (tv : ℤ) (dv : ℚ)
    (rr2 : List RecRecord)
    (hs : splitOnce ENDAc text = some (ap, rr))
    (hpv : tokFloat? (searchLabelNum PKc ap) = some pv)
    (htv : tokInt? (searchLabelNum TTEc ap) = some tv)
    (hdv : tokFloat? (searchLabelNum SKc ap) = some dv)
    (hrec : processBlocks (splitFullOn STARTRc rr) = .ok rr2)
    (hz : tv = 0 ∨ pv = 0) :
    parse_agent_response text = .error .incompleteAnalysis := by
  unfold parse_agent_response
  rw [hs]
  simp only [hpv, htv, hdv, hrec]
  rw [if_pos hz]

/-- C5 amended witness: a concrete text with the delimiter, a well-formed
recommendation block, a valid control prediction and no target label. -/
theorem c5_sentinel_zero_witness :
    parse_agent_response c5WitText = .error .incompleteAnalysis :=
  c5_sentinel_zero c5WitText (("Prediksi_Kontrol: 75.5\n").data)
    (("\nRekomendasi 1: a\nTruk: 5\nAlasan: b\n").data) (151 / 2) 0 0
    [⟨("a").data, some (.intV 5), none, none, none, none, none, ("b").data⟩]
    (by decide) (by decide) (by decide) (by decide) (by decide) (Or.inl rfl)

/-- C3 counterexample: on the exact concrete input of spec section 8
property 6 the single parsed recommendation's weather field is the string
"1" as stored by the parser, not the integer 1 the claim asserts. -/
theorem c3_weather_counterexample :
    c3Weathers c3Text = [some (.strV (("1").data))] ∧
    FieldVal.strV (("1").data) ≠ FieldVal.intV 1 := by
  refine ⟨?_, ?_⟩ <;> decide

/-- C3 amended: the exact concrete input of spec section 8 property 6
parses to target_tonnage 80, initial_prediction 75.5, initial_difference
4.5 and exactly one recommendation titled Tambah Truk with trucks 14,
excavators 3, operators 18, weather the string "1", predicted_tonnage 79.8,
difference_from_target 0.2 and the stated rationale. -/
theorem c3_concrete_parse :
    parse_agent_response c3Text = .ok
      ⟨("Kontrol baik.").data, 151 / 2, 80, 9 / 2,
        [⟨("Tambah Truk").data, some (.intV 14), some (.intV 3), some (.intV 18),
          some (.strV (("1").data)), some (.floatV (399 / 5)), some (.floatV (1 / 5)),
          ("Penambahan truk mendekati target.").data⟩]⟩ := by
  decide

/-! Character-class lemmas for the round-trip proof. -/

theorem bfalse_ne (c x : Char) {f : Char → Bool} (h : f c = true) (hx : f x = false) : c ≠ x := by
  intro he
  rw [he, hx] at h
  cases h

theorem dd_of_digit (c : Char) (h : c.isDigit = true) : isDigitOrDot c = true := by
  unfold isDigitOrDot
  rw [h]
  rfl

theorem not_space_of_dd (c : Char) (h : isDigitOrDot c = true) : isPySpace c = false := by
  cases hs : isPySpace c
  · rfl
  · exfalso
    unfold isPySpace at hs
    simp only [Bool.or_eq_true, beq_iff_eq] at hs
    rcases hs with ((((h1 | h1) | h1) | h1) | h1) | h1 <;> subst h1 <;> exact absurd h (by decide)

theorem not_labelHead_of_dd (c : Char) (h : isDigitOrDot c = true) : labelHead c = false := by
  cases hl : labelHead c
  · rfl
  · exfalso
    unfold labelHead at hl
    simp only [Bool.or_eq_true, beq_iff_eq] at hl
    rcases hl with (((((h1 | h1) | h1) | h1) | h1) | h1) | h1 <;> subst h1 <;>
      exact absurd h (by decide)

theorem not_labelHead_of_good (c : Char) (h : goodChar c = true) : labelHead c = false := by
  cases hl : labelHead c
  · rfl
  · exfalso
    unfold labelHead at hl
    simp only [Bool.or_eq_true, beq_iff_eq] at hl
    rcases hl with (((((h1 | h1) | h1) | h1) | h1) | h1) | h1 <;> subst h1 <;>
      exact absurd h (by decide)

theorem not_space_of_good_head (c : Char) (h : goodChar c = true) (hs : c ≠ ' ') :
    isPySpace c = false := by
  cases hp : isPySpace c
  · rfl
  · exfalso
    unfold isPySpace at hp
    simp only [Bool.or_eq_true, beq_iff_eq] at hp
    rcases hp with ((((h1 | h1) | h1) | h1) | h1) | h1
    · exact hs h1
    all_goals (subst h1; exact absurd h (by decide))

/-! Decimal numeral lemmas. -/

theorem digitChar_isDigit (d : ℕ) (h : d < 10) : (digitChar d).isDigit = true := by
  interval_cases d <;> decide

theorem digitVal_digitChar (d : ℕ) (h : d < 10) : digitVal (digitChar d) = d := by
  interval_cases d <;> decide

theorem natOfDigits_append_one (xs : List Char) (c : Char) :
    natOfDigits (xs ++ [c]) = 10 * natOfDigits xs + digitVal c := by
  unfold natOfDigits
  rw [List.foldl_append]
  rfl

theorem natDigitsAux_spec :
    ∀ f n : ℕ, n < f →
      natDigitsAux f n ≠ [] ∧ (∀ c ∈ natDigitsAux f n, c.isDigit = true) ∧
        natOfDigits (natDigitsAux f n) = n := by
  intro f
  induction f with
  | zero => intro n hn; omega
  | succ f ih =>
    intro n hn
    unfold natDigitsAux
    by_cases h10 : n < 10
    · rw [if_pos h10]
      refine ⟨by simp, ?_, ?_⟩
      · intro c hc
        simp only [List.mem_singleton] at hc
        subst hc
        exact digitChar_isDigit n h10
      · have h1 : natOfDigits [digitChar n] = digitVal (digitChar n) := by
          unfold natOfDigits
          simp
        rw [h1, digitVal_digitChar n h10]
    · rw [if_neg h10]
      have hlt : n / 10 < n := Nat.div_lt_self (by omega) (by omega)
      obtain ⟨hne, hdig, hval⟩ := ih (n / 10) (by omega)
      refine ⟨by simp, ?_, ?_⟩
      · intro c hc
        rcases List.mem_append.mp hc with hc | hc
        · exact hdig c hc
        · simp only [List.mem_singleton] at hc
          subst hc
          exact digitChar_isDigit _ (Nat.mod_lt _ (by omega))
      · rw [natOfDigits_append_one, hval, digitVal_digitChar _ (Nat.mod_lt _ (by omega))]
        omega

theorem natStr_ne_nil (n : ℕ) : natStr n ≠ [] :=
  (natDigitsAux_spec (n + 1) n (by omega)).1

theorem natStr_digits (n : ℕ) : ∀ c ∈ natStr n, c.isDigit = true :=
  (natDigitsAux_spec (n + 1) n (by omega)).2.1

theorem natOfDigits_natStr (n : ℕ) : natOfDigits (natStr n) = n :=
  (natDigitsAux_spec (n + 1) n (by omega)).2.2

theorem natDigitsAux_len :
    ∀ f n k : ℕ, n < f → n < 10 ^ k → 1 ≤ k → (natDigitsAux f n).length ≤ k := by
  intro f
  induction f with
  | zero => intro n k hn; omega
  | succ f ih =>
    intro n k hn hk h1
    unfold natDigitsAux
    by_cases h10 : n < 10
    · rw [if_pos h10]
      simpa using h1
    · rw [if_neg h10]
      rw [List.length_append, List.length_singleton]
      have hk2 : 2 ≤ k := by
        by_contra hlt
        push_neg at hlt
        interval_cases k <;> simp_all <;> omega
      have hdiv : n / 10 < 10 ^ (k - 1) := by
        rw [Nat.div_lt_iff_lt_mul (by omega : 0 < 10)]
        have hpow : 10 ^ (k - 1) * 10 = 10 ^ k := by
          rw [← pow_succ]
          congr 1
          omega
        omega
      have hlt : n / 10 < n := Nat.div_lt_self (by omega) (by omega)
      have := ih (n / 10) (k - 1) (by omega) hdiv (by omega)
      omega

theorem natStr_len (n k : ℕ) (hk : n < 10 ^ k) (h1 : 1 ≤ k) : (natStr n).length ≤ k :=
  natDigitsAux_len (n + 1) n k (by omega) hk h1

theorem natOfDigits_replicate_zero (k : ℕ) (ds : List Char) :
    natOfDigits (List.replicate k '0' ++ ds) = natOfDigits ds := by
  induction k with
  | zero => rfl
  | succ k ih =>
    rw [List.replicate_succ]
    show natOfDigits ('0' :: (List.replicate k '0' ++ ds)) = _
    unfold natOfDigits at ih ⊢
    simp only [List.foldl_cons]
    have h0 : 10 * 0 + digitVal '0' = 0 := by decide
    rw [h0]
    exact ih

theorem splitOnce_single_none (x : Char) (s : List Char) (h : x ∉ s) : splitOnce [x] s = none := by
  induction s with
  | nil => rfl
  | cons c cs ih =>
    unfold splitOnce
    rw [if_neg, ih (fun hm => h (List.mem_cons_of_mem _ hm))]
    · rfl
    · show ¬lstartsWith [x] (c :: cs) = true
      unfold lstartsWith
      simp only [Bool.and_eq_true, beq_iff_eq]
      rintro ⟨he, -⟩
      exact h (he ▸ List.mem_cons_self _ _)

theorem dot_notin_digits (s : List Char) (h : ∀ c ∈ s, c.isDigit = true) : '.' ∉ s :=
  fun hm => absurd (h _ hm) (by decide)

theorem decCore?_natStr (n : ℕ) : decCore? (natStr n) = some (n : ℚ) := by
  have hd := natStr_digits n
  have hne := natStr_ne_nil n
  have hdot : '.' ∉ natStr n := dot_notin_digits _ hd
  have hcond : (natStr n).all isDigitOrDot = true ∧
      (natStr n).any (fun c => c.isDigit) = true ∧ (natStr n).count '.' ≤ 1 := by
    refine ⟨?_, ?_, ?_⟩
    · rw [List.all_eq_true]
      intro c hc
      exact dd_of_digit c (hd c hc)
    · rw [List.any_eq_true]
      obtain ⟨c, hc⟩ := List.exists_mem_of_ne_nil _ hne
      exact ⟨c, hc, hd c hc⟩
    · have hz : (natStr n).count '.' = 0 := List.count_eq_zero.mpr hdot
      omega
  unfold decCore?
  rw [if_pos hcond, splitOnce_single_none _ _ hdot, natOfDigits_natStr]

theorem renderDec_dd (d : Dec) : ∀ c ∈ renderDec d, isDigitOrDot c = true := by
  intro c hc
  unfold renderDec at hc
  by_cases he : d.e = 0
  · rw [if_pos he] at hc
    exact dd_of_digit c (natStr_digits _ c hc)
  · rw [if_neg he] at hc
    rcases List.mem_append.mp hc with hc | hc
    · exact dd_of_digit c (natStr_digits _ c hc)
    · rcases List.mem_cons.mp hc with hc | hc
      · subst hc; decide
      · unfold padZeros at hc
        rcases List.mem_append.mp hc with hc | hc
        · rw [List.eq_of_mem_replicate hc]; decide
        · exact dd_of_digit c (natStr_digits _ c hc)

theorem renderDec_ne_nil (d : Dec) : renderDec d ≠ [] := by
  unfold renderDec
  by_cases he : d.e = 0
  · rw [if_pos he]; exact natStr_ne_nil _
  · rw [if_neg he]
    intro habs
    rw [List.append_eq_nil] at habs
    exact absurd habs.2 (by simp)

theorem splitOnce_cons_pat (x : Char) (xs ys : List Char) (h : x ∉ xs) :
    splitOnce [x] (xs ++ x :: ys) = some (xs, ys) := by
  induction xs with
  | nil =>
    show splitOnce [x] (x :: ys) = some ([], ys)
    unfold splitOnce
    rw [if_pos]
    · rfl
    · show ((x == x) && lstartsWith [] ys) = true
      simp [lstartsWith]
  | cons c cs ih =>
    show splitOnce [x] (c :: (cs ++ x :: ys)) = some (c :: cs, ys)
    unfold splitOnce
    rw [if_neg, ih (fun hm => h (List.mem_cons_of_mem _ hm))]
    · rfl
    · show ¬((x == c) && lstartsWith [] (cs ++ x :: ys)) = true
      simp only [Bool.and_eq_true, beq_iff_eq]
      rintro ⟨he, -⟩
      exact h (he ▸ List.mem_cons_self _ _)

theorem decCore?_renderDec (d : Dec) : decCore? (renderDec d) = some d.val := by
  by_cases he : d.e = 0
  · unfold renderDec
    rw [if_pos he, decCore?_natStr]
    unfold Dec.val
    rw [he]
    norm_num
  · have hfp : d.m % 10 ^ d.e < 10 ^ d.e := Nat.mod_lt _ (by positivity)
    have hipd : ∀ c ∈ natStr (d.m / 10 ^ d.e), c.isDigit = true := natStr_digits _
    have hfpd : ∀ c ∈ padZeros d.e (natStr (d.m % 10 ^ d.e)), c.isDigit = true := by
      intro c hc
      unfold padZeros at hc
      rcases List.mem_append.mp hc with hc | hc
      · rw [List.eq_of_mem_replicate hc]; decide
      · exact natStr_digits _ c hc
    have hfplen : (padZeros d.e (natStr (d.m % 10 ^ d.e))).length = d.e := by
      unfold padZeros
      rw [List.length_append, List.length_replicate]
      have := natStr_len (d.m % 10 ^ d.e) d.e hfp (by omega)
      omega
    have hdotip : '.' ∉ natStr (d.m / 10 ^ d.e) := dot_notin_digits _ hipd
    have hdotfp : '.' ∉ padZeros d.e (natStr (d.m % 10 ^ d.e)) := dot_notin_digits _ hfpd
    unfold renderDec
    rw [if_neg he]
    unfold decCore?
    rw [if_pos, splitOnce_cons_pat _ _ _ hdotip]
    · have hv1 : natOfDigits (natStr (d.m / 10 ^ d.e)) = d.m / 10 ^ d.e := natOfDigits_natStr _
      have hv2 : natOfDigits (padZeros d.e (natStr (d.m % 10 ^ d.e))) = d.m % 10 ^ d.e := by
        unfold padZeros
        rw [natOfDigits_replicate_zero, natOfDigits_natStr]
      show some ((natOfDigits (natStr (d.m / 10 ^ d.e)) : ℚ) +
          (natOfDigits (padZeros d.e (natStr (d.m % 10 ^ d.e))) : ℚ) /
            10 ^ (padZeros d.e (natStr (d.m % 10 ^ d.e))).length) = some d.val
      rw [hv1, hv2, hfplen]
      congr 1
      unfold Dec.val
      have hnat : (d.m / 10 ^ d.e) * 10 ^ d.e + d.m % 10 ^ d.e = d.m := by
        rw [mul_comm]
        exact Nat.div_add_mod d.m (10 ^ d.e)
      have hpow : ((10 : ℚ) ^ d.e) ≠ 0 := by positivity
      field_simp
      exact_mod_cast hnat
    · refine ⟨?_, ?_, ?_⟩
      · rw [List.all_eq_true]
        intro c hc
        rcases List.mem_append.mp hc with hc | hc
        · exact dd_of_digit c (hipd c hc)
        · rcases List.mem_cons.mp hc with hc | hc
          · subst hc; decide
          · exact dd_of_digit c (hfpd c hc)
      · rw [List.any_eq_true]
        obtain ⟨c, hc⟩ := List.exists_mem_of_ne_nil _ (natStr_ne_nil (d.m / 10 ^ d.e))
        exact ⟨c, List.mem_append.mpr (Or.inl hc), hipd c hc⟩
      · rw [List.count_append, List.count_cons]
        have h1 : (natStr (d.m / 10 ^ d.e)).count '.' = 0 := List.count_eq_zero.mpr hdotip
        have h2 : (padZeros d.e (natStr (d.m % 10 ^ d.e))).count '.' = 0 :=
          List.count_eq_zero.mpr hdotfp
        simp [h1, h2]

theorem dropWhile_eq_self_of_head (p : Char → Bool) (s : List Char)
    (h : ∀ c, s.head? = some c → p c = false) : s.dropWhile p = s := by
  cases s with
  | nil => rfl
  | cons c cs =>
    rw [List.dropWhile_cons, if_neg (by simp [h c rfl])]

theorem stripChars_id (s : List Char) (h : ∀ c ∈ s, isPySpace c = false) : stripChars s = s := by
  unfold stripChars
  rw [dropWhile_eq_self_of_head _ _ (fun c hc => h c (List.mem_of_mem_head? hc)),
    dropWhile_eq_self_of_head _ _
      (fun c hc => h c (List.mem_reverse.mp (List.mem_of_mem_head? hc))),
    List.reverse_reverse]

theorem splitExp_none (s : List Char) (h : ∀ c ∈ s, (c == 'e' || c == 'E') = false) :
    splitExp s = none := by
  induction s with
  | nil => rfl
  | cons c cs ih =>
    unfold splitExp
    rw [if_neg (by simp [h c (List.mem_cons_self _ _)]),
      ih (fun x hx => h x (List.mem_cons_of_mem _ hx))]
    rfl

theorem parseSign_id (s : List Char) (h : ∀ c, s.head? = some c → c ≠ '+' ∧ c ≠ '-') :
    parseSign s = (1, s) := by
  cases s with
  | nil => rfl
  | cons c cs =>
    obtain ⟨h1, h2⟩ := h c rfl
    show (if (c == '+') = true then ((1 : ℤ), cs)
        else if (c == '-') = true then (-1, cs) else (1, c :: cs)) = (1, c :: cs)
    rw [if_neg (by simp [h1]), if_neg (by simp [h2])]

theorem pyFloat?_plain (s : List Char) (h : ∀ c ∈ s, isDigitOrDot c = true)
    (q : ℚ) (hq : decCore? s = some q) : pyFloat? s = some (.fin q) := by
  have hstrip : stripChars s = s := stripChars_id s (fun c hc => not_space_of_dd c (h c hc))
  have hsign : parseSign s = (1, s) := parseSign_id s (fun c hc =>
    ⟨bfalse_ne c '+' (h c (List.mem_of_mem_head? hc)) (by decide),
     bfalse_ne c '-' (h c (List.mem_of_mem_head? hc)) (by decide)⟩)
  have hexp : splitExp s = none := splitExp_none s (fun c hc => by
    have h1 : c ≠ 'e' := bfalse_ne c 'e' (h c hc) (by decide)
    have h2 : c ≠ 'E' := bfalse_ne c 'E' (h c hc) (by decide)
    simp [h1, h2])
  simp only [pyFloat?]
  rw [hstrip, hsign]
  simp only []
  rw [hexp, hq]
  norm_num

theorem removeTon_eq_self (s : List Char) (h : ∀ c ∈ s, c ≠ 'T') : removeTon s = s := by
  induction s with
  | nil => rfl
  | cons c cs ih =>
    show removeTonF (c :: cs).length (c :: cs) = c :: cs
    rw [List.length_cons]
    unfold removeTonF
    rw [if_neg]
    · rw [show removeTonF cs.length cs = removeTon cs from rfl,
        ih (fun x hx => h x (List.mem_cons_of_mem _ hx))]
    · have hc : ('T' == c) = false := by
        rw [beq_eq_false_iff_ne]
        exact fun he => (h c (List.mem_cons_self _ _)) he.symm
      show ¬(lstartsWith (("Ton").data) (c :: cs)) = true
      have hred : lstartsWith (("Ton").data) (c :: cs) =
          (('T' == c) && lstartsWith (("on").data) cs) := rfl
      rw [hred, hc]
      simp

theorem cleanValue_dd (v : List Char) (h : ∀ c ∈ v, isDigitOrDot c = true) : cleanValue v = v := by
  unfold cleanValue
  rw [removeTon_eq_self v (fun c hc => bfalse_ne c 'T' (h c hc) (by decide)),
    List.filter_eq_self.mpr (fun c hc => by simp [bfalse_ne c ',' (h c hc) (by decide)])]
  exact stripChars_id v (fun c hc => not_space_of_dd c (h c hc))

theorem ratTrunc_natCast (n : ℕ) : ratTrunc ((n : ℕ) : ℚ) = n := by
  unfold ratTrunc
  rw [if_pos (by positivity)]
  exact_mod_cast Int.floor_natCast n

theorem coerceNum_natStr (t : ℕ) : coerceNum (cleanValue (natStr t)) = some (.intV t) := by
  rw [cleanValue_dd _ (fun c hc => dd_of_digit c (natStr_digits t c hc))]
  unfold coerceNum
  rw [pyFloat?_plain _ (fun c hc => dd_of_digit c (natStr_digits t c hc)) _ (decCore?_natStr t)]
  simp [ratTrunc_natCast]

theorem coerceFloat_renderDec (d : Dec) :
    coerceFloat (cleanValue (renderDec d)) = .floatV d.val := by
  rw [cleanValue_dd _ (renderDec_dd d)]
  unfold coerceFloat
  rw [pyFloat?_plain _ (renderDec_dd d) _ (decCore?_renderDec d)]

/-! Scanner lemmas. -/

theorem lstartsWith_append_self (pat rest : List Char) : lstartsWith pat (pat ++ rest) = true := by
  induction pat with
  | nil => rfl
  | cons p ps ih =>
    show ((p == p) && lstartsWith ps (ps ++ rest)) = true
    simp [ih]

theorem lstartsWith_head_ne (pat s : List Char) (c0 c : Char) (hp : pat.head? = some c0)
    (hs : s.head? = some c) (hne : c0 ≠ c) : lstartsWith pat s = false := by
  cases pat with
  | nil => cases hp
  | cons p ps =>
    cases s with
    | nil => cases hs
    | cons a t =>
      injection hp with hp
      injection hs with hs
      have hne2 : p ≠ a := by rw [hp, hs]; exact hne
      show ((p == a) && lstartsWith ps t) = false
      rw [beq_eq_false_iff_ne.mpr hne2]
      rfl

theorem lstartsWith_length_le (pat s : List Char) (h : lstartsWith pat s = true) :
    pat.length ≤ s.length := by
  induction pat generalizing s with
  | nil => simp
  | cons p ps ih =>
    cases s with
    | nil => cases h
    | cons c cs =>
      have h2 : ((p == c) && lstartsWith ps cs) = true := h
      rw [Bool.and_eq_true] at h2
      have := ih cs h2.2
      simp only [List.length_cons]
      omega

theorem lstartsWith_eq_append (pat s : List Char) (h : lstartsWith pat s = true) :
    s = pat ++ s.drop pat.length := by
  induction pat generalizing s with
  | nil => simp
  | cons p ps ih =>
    cases s with
    | nil => cases h
    | cons c cs =>
      have h2 : ((p == c) && lstartsWith ps cs) = true := h
      rw [Bool.and_eq_true] at h2
      obtain ⟨hpc, hrest⟩ := h2
      rw [beq_iff_eq] at hpc
      subst hpc
      show p :: cs = p :: (ps ++ cs.drop ps.length)
      rw [← ih cs hrest]

theorem drop_len_succ_append (l : List Char) (c : Char) (t : List Char) :
    (l ++ c :: t).drop (l.length + 1) = t := by
  have h1 : l ++ c :: t = (l ++ [c]) ++ t := by simp
  have h2 : l.length + 1 = (l ++ [c]).length := by simp
  rw [h1, h2, List.drop_left]

theorem splitOnce_eq_append (pat s a b : List Char) (h : splitOnce pat s = some (a, b)) :
    s = a ++ pat ++ b := by
  induction s generalizing a with
  | nil =>
    cases pat with
    | nil =>
      unfold splitOnce at h
      rw [if_pos (show lstartsWith ([] : List Char) [] = true from rfl)] at h
      injection h with h
      rw [Prod.mk.injEq] at h
      obtain ⟨ha, hb⟩ := h
      subst ha
      subst hb
      rfl
    | cons p ps =>
      unfold splitOnce at h
      rw [if_neg (by intro habs; cases habs)] at h
      cases h
  | cons c cs ih =>
    unfold splitOnce at h
    by_cases hl : lstartsWith pat (c :: cs) = true
    · rw [if_pos hl] at h
      injection h with h
      rw [Prod.mk.injEq] at h
      obtain ⟨ha, hb⟩ := h
      subst ha
      subst hb
      simpa using lstartsWith_eq_append pat _ hl
    · rw [if_neg hl] at h
      rw [Option.map_eq_some'] at h
      obtain ⟨⟨a', b'⟩, hsp, heq⟩ := h
      rw [Prod.mk.injEq] at heq
      obtain ⟨ha, hb⟩ := heq
      subst ha
      subst hb
      have := ih a' hsp
      rw [List.cons_append, List.cons_append, ← this]

theorem splitOnce_prefix (pat xs ys : List Char) (c0 : Char) (hp : pat.head? = some c0)
    (hx : ∀ c ∈ xs, c ≠ c0) : splitOnce pat (xs ++ (pat ++ ys)) = some (xs, ys) := by
  induction xs with
  | nil =>
    cases pat with
    | nil => cases hp
    | cons p ps =>
      show splitOnce (p :: ps) (p :: (ps ++ ys)) = some ([], ys)
      unfold splitOnce
      rw [if_pos (by rw [← List.cons_append]; exact lstartsWith_append_self _ _)]
      congr 1
      rw [Prod.mk.injEq]
      refine ⟨rfl, ?_⟩
      show (ps ++ ys).drop ps.length = ys
      rw [List.drop_left]
  | cons x xs ih =>
    have hxn : x ≠ c0 := hx x (List.mem_cons_self _ _)
    show splitOnce pat (x :: (xs ++ (pat ++ ys))) = some (x :: xs, ys)
    unfold splitOnce
    rw [if_neg (by
        rw [lstartsWith_head_ne pat (x :: (xs ++ (pat ++ ys))) c0 x hp rfl
          (fun he => hxn he.symm)]
        simp),
      ih (fun c hc => hx c (List.mem_cons_of_mem _ hc))]
    rfl

theorem takeWhile_append_exact (p : Char → Bool) (xs ys : List Char)
    (hx : ∀ c ∈ xs, p c = true)
    (hy : ys = [] ∨ ∃ c, ys.head? = some c ∧ p c = false) :
    (xs ++ ys).takeWhile p = xs := by
  induction xs with
  | nil =>
    rcases hy with rfl | ⟨c, hc, hpc⟩
    · rfl
    · cases ys with
      | nil => rfl
      | cons y yt =>
        injection hc with hc
        subst hc
        show (y :: yt).takeWhile p = []
        rw [List.takeWhile_cons, if_neg (by simp [hpc])]
  | cons x xs ih =>
    show ((x :: (xs ++ ys)).takeWhile p) = x :: xs
    rw [List.takeWhile_cons, if_pos (hx x (List.mem_cons_self _ _)),
      ih (fun c hc => hx c (List.mem_cons_of_mem _ hc))]

theorem dropWhile_append_exact (p : Char → Bool) (xs ys : List Char)
    (hx : ∀ c ∈ xs, p c = true)
    (hy : ys = [] ∨ ∃ c, ys.head? = some c ∧ p c = false) :
    (xs ++ ys).dropWhile p = ys := by
  induction xs with
  | nil =>
    rcases hy with rfl | ⟨c, hc, hpc⟩
    · rfl
    · cases ys with
      | nil => rfl
      | cons y yt =>
        injection hc with hc
        subst hc
        show (y :: yt).dropWhile p = y :: yt
        rw [List.dropWhile_cons, if_neg (by simp [hpc])]
  | cons x xs ih =>
    show ((x :: (xs ++ ys)).dropWhile p) = ys
    rw [List.dropWhile_cons, if_pos (hx x (List.mem_cons_self _ _)),
      ih (fun c hc => hx c (List.mem_cons_of_mem _ hc))]

theorem searchLabelNum_skip (label xs ys : List Char) (c0 : Char)
    (hp : (label ++ [':']).head? = some c0) (hx : ∀ c ∈ xs, c ≠ c0) :
    searchLabelNum label (xs ++ ys) = searchLabelNum label ys := by
  induction xs with
  | nil => rfl
  | cons x xs ih =>
    show searchLabelNum label (x :: (xs ++ ys)) = _
    simp only [searchLabelNum]
    rw [lstartsWith_head_ne (label ++ [':']) (x :: (xs ++ ys)) c0 x hp rfl
      (fun he => hx x (List.mem_cons_self _ _) he.symm)]
    simp only [Bool.false_eq_true, if_false]
    exact ih (fun c hc => hx c (List.mem_cons_of_mem _ hc))

theorem numRunAfter_space (num rest : List Char) (hnum : num ≠ [])
    (hdd : ∀ c ∈ num, isDigitOrDot c = true)
    (hrest : rest = [] ∨ rest.head? = some '\n') :
    numRunAfter (' ' :: (num ++ rest)) = num := by
  have hstop : rest = [] ∨ ∃ c, rest.head? = some c ∧ isDigitOrDot c = false := by
    rcases hrest with rfl | hh
    · exact Or.inl rfl
    · exact Or.inr ⟨'\n', hh, by decide⟩
  unfold numRunAfter
  rw [List.dropWhile_cons, if_pos (by decide)]
  rw [dropWhile_eq_self_of_head _ _ ?hhead]
  case hhead =>
    intro c hc
    cases num with
    | nil => exact absurd rfl hnum
    | cons n0 ns =>
      injection hc with hc
      subst hc
      exact not_space_of_dd _ (hdd _ (List.mem_cons_self _ _))
  exact takeWhile_append_exact _ _ _ hdd hstop

theorem searchLabelNum_at (label num rest : List Char) (hlab : label ≠ [])
    (hnum : num ≠ []) (hdd : ∀ c ∈ num, isDigitOrDot c = true)
    (hrest : rest = [] ∨ rest.head? = some '\n') :
    searchLabelNum label (label ++ ':' :: ' ' :: (num ++ rest)) = some num := by
  cases label with
  | nil => exact absurd rfl hlab
  | cons l0 ls =>
    have hshape : (l0 :: ls) ++ ':' :: ' ' :: (num ++ rest) =
        l0 :: (ls ++ ':' :: ' ' :: (num ++ rest)) := by simp
    have hstart : lstartsWith ((l0 :: ls) ++ [':'])
        (l0 :: (ls ++ ':' :: ' ' :: (num ++ rest))) = true := by
      rw [← hshape,
        show (l0 :: ls) ++ ':' :: ' ' :: (num ++ rest) =
          ((l0 :: ls) ++ [':']) ++ (' ' :: (num ++ rest)) from by simp]
      exact lstartsWith_append_self _ _
    have hdropped : (l0 :: (ls ++ ':' :: ' ' :: (num ++ rest))).drop ((l0 :: ls).length + 1) =
        ' ' :: (num ++ rest) := by
      rw [← hshape]
      exact drop_len_succ_append (l0 :: ls) ':' (' ' :: (num ++ rest))
    rw [hshape]
    simp only [searchLabelNum]
    rw [hstart, hdropped, numRunAfter_space num rest hnum hdd hrest]
    rw [if_pos rfl, if_neg (by simp [hnum])]

theorem tryVal_eq (v rest : List Char) (hv : v ≠ [])
    (hvh : ∀ c, v.head? = some c → c ≠ '\n') (hvn : ∀ c ∈ v, c ≠ '\n')
    (hrest : rest = [] ∨ rest.head? = some '\n') :
    tryVal (v ++ rest) = some (v, rest) := by
  have hstop : rest = [] ∨ ∃ c, rest.head? = some c ∧ (!(c == '\n')) = false := by
    rcases hrest with rfl | hh
    · exact Or.inl rfl
    · exact Or.inr ⟨'\n', hh, by decide⟩
  cases v with
  | nil => exact absurd rfl hv
  | cons c cs =>
    have hc : c ≠ '\n' := hvh c rfl
    show (if (c == '\n') = true then none
        else some ((c :: (cs ++ rest)).takeWhile (fun x => !(x == '\n')),
          (c :: (cs ++ rest)).dropWhile (fun x => !(x == '\n')))) = some (c :: cs, rest)
    rw [if_neg (by simp [hc])]
    have ht : ((c :: cs) ++ rest).takeWhile (fun x => !(x == '\n')) = c :: cs :=
      takeWhile_append_exact _ _ _ (fun x hx => by simp [hvn x hx]) hstop
    have hd : ((c :: cs) ++ rest).dropWhile (fun x => !(x == '\n')) = rest :=
      dropWhile_append_exact _ _ _ (fun x hx => by simp [hvn x hx]) hstop
    rw [List.cons_append] at ht hd
    rw [ht, hd]

theorem valueAfter_space (v rest : List Char) (hv : v ≠ [])
    (hvh : ∀ c, v.head? = some c → isPySpace c = false ∧ c ≠ '\n')
    (hvn : ∀ c ∈ v, c ≠ '\n') (hrest : rest = [] ∨ rest.head? = some '\n') :
    valueAfter (' ' :: (v ++ rest)) = some (v, rest) := by
  unfold valueAfter
  have hws : ((' ' :: (v ++ rest)).takeWhile isPySpace).length = 1 := by
    rw [List.takeWhile_cons, if_pos (by decide)]
    have : (v ++ rest).takeWhile isPySpace = [] := by
      cases v with
      | nil => exact absurd rfl hv
      | cons c cs =>
        show ((c :: (cs ++ rest)).takeWhile isPySpace) = []
        rw [List.takeWhile_cons, if_neg (by simp [(hvh c rfl).1])]
    rw [this]
    rfl
  rw [hws]
  show backtrackVal 1 (' ' :: (v ++ rest)) = some (v, rest)
  unfold backtrackVal
  rw [show (' ' :: (v ++ rest)).drop (0 + 1) = v ++ rest from rfl,
    tryVal_eq v rest hv (fun c hc => (hvh c hc).2) hvn hrest]

theorem findSome?_cons_none {α β : Type} (f : α → Option β) (a : α) (l : List α)
    (h : f a = none) : List.findSome? f (a :: l) = List.findSome? f l := by
  rw [List.findSome?_cons, h]

theorem findSome?_exists {α β : Type} (f : α → Option β) (l : List α) (b : β)
    (h : List.findSome? f l = some b) : ∃ a ∈ l, f a = some b := by
  induction l with
  | nil => cases h
  | cons a l ih =>
    rw [List.findSome?_cons] at h
    cases hfa : f a with
    | some b' =>
      rw [hfa] at h
      injection h with h
      subst h
      exact ⟨a, List.mem_cons_self _ _, hfa⟩
    | none =>
      rw [hfa] at h
      obtain ⟨x, hx, hfx⟩ := ih h
      exact ⟨x, List.mem_cons_of_mem _ hx, hfx⟩

theorem matchParamAt_none (c : Char) (cs : List Char) (h : labelHead c = false) :
    matchParamAt (c :: cs) = none := by
  have h7 : c ≠ 'T' ∧ c ≠ 'E' ∧ c ≠ 'O' ∧ c ≠ 'C' ∧ c ≠ 'P' ∧ c ≠ 'S' ∧ c ≠ 'A' := by
    refine ⟨?_, ?_, ?_, ?_, ?_, ?_, ?_⟩ <;>
      exact fun he => by rw [he] at h; exact absurd h (by decide)
  obtain ⟨t1, t2, t3, t4, t5, t6, t7⟩ := h7
  unfold matchParamAt recLabels
  rw [findSome?_cons_none _ _ _ (by
      rw [if_neg (by
        rw [lstartsWith_head_ne ((("Truk").data) ++ [':']) (c :: cs) 'T' c rfl rfl
          (fun he => t1 he.symm)]
        simp)]),
    findSome?_cons_none _ _ _ (by
      rw [if_neg (by
        rw [lstartsWith_head_ne ((("Ekskavator").data) ++ [':']) (c :: cs) 'E' c rfl rfl
          (fun he => t2 he.symm)]
        simp)]),
    findSome?_cons_none _ _ _ (by
      rw [if_neg (by
        rw [lstartsWith_head_ne ((("Operator").data) ++ [':']) (c :: cs) 'O' c rfl rfl
          (fun he => t3 he.symm)]
        simp)]),
    findSome?_cons_none _ _ _ (by
      rw [if_neg (by
        rw [lstartsWith_head_ne ((("Cuaca").data) ++ [':']) (c :: cs) 'C' c rfl rfl
          (fun he => t4 he.symm)]
        simp)]),
    findSome?_cons_none _ _ _ (by
      rw [if_neg (by
        rw [lstartsWith_head_ne ((("Prediksi").data) ++ [':']) (c :: cs) 'P' c rfl rfl
          (fun he => t5 he.symm)]
        simp)]),
    findSome?_cons_none _ _ _ (by
      rw [if_neg (by
        rw [lstartsWith_head_ne ((("Selisih").data) ++ [':']) (c :: cs) 'S' c rfl rfl
          (fun he => t6 he.symm)]
        simp)]),
    findSome?_cons_none _ _ _ (by
      rw [if_neg (by
        rw [lstartsWith_head_ne ((("Alasan").data) ++ [':']) (c :: cs) 'A' c rfl rfl
          (fun he => t7 he.symm)]
        simp)])]
  rfl

theorem tryVal_some (t g r : List Char) (h : tryVal t = some (g, r)) :
    g ≠ [] ∧ g.length + r.length = t.length := by
  cases t with
  | nil => cases h
  | cons c cs =>
    have h' : (if (c == '\n') = true then (none : Option (List Char × List Char))
        else some ((c :: cs).takeWhile (fun x => !(x == '\n')),
          (c :: cs).dropWhile (fun x => !(x == '\n')))) = some (g, r) := h
    clear h
    by_cases hc : (c == '\n') = true
    · rw [if_pos hc] at h'
      cases h'
    · rw [if_neg hc] at h'
      injection h' with h
      rw [Prod.mk.injEq] at h
      obtain ⟨hg, hr⟩ := h
      constructor
      · rw [← hg, List.takeWhile_cons, if_pos (by simpa using hc)]
        simp
      · rw [← hg, ← hr, ← List.length_append, List.takeWhile_append_dropWhile]

theorem backtrackVal_le (k : ℕ) (s g r : List Char) (h : backtrackVal k s = some (g, r)) :
    g ≠ [] ∧ g.length + r.length ≤ s.length := by
  induction k with
  | zero =>
    obtain ⟨h1, h2⟩ := tryVal_some s g r h
    exact ⟨h1, le_of_eq h2⟩
  | succ k ih =>
    unfold backtrackVal at h
    cases htv : tryVal (s.drop (k + 1)) with
    | some p =>
      rw [htv] at h
      injection h with h
      subst h
      obtain ⟨h1, h2⟩ := tryVal_some _ _ _ htv
      rw [List.length_drop] at h2
      exact ⟨h1, by omega⟩
    | none =>
      rw [htv] at h
      exact ih h

theorem matchParamAt_nil : matchParamAt [] = none := by decide

theorem matchParamAt_some_lt (s l g rest : List Char)
    (h : matchParamAt s = some (l, g, rest)) : rest.length < s.length := by
  unfold matchParamAt at h
  obtain ⟨lab, hmem, hlab⟩ := findSome?_exists _ _ _ h
  by_cases hls : lstartsWith (lab ++ [':']) s = true
  · rw [if_pos hls] at hlab
    rw [Option.map_eq_some'] at hlab
    obtain ⟨⟨g', r'⟩, hva, heq⟩ := hlab
    have hr : r' = rest := congrArg (fun p => p.2.2) heq
    subst hr
    have hlen := lstartsWith_length_le _ _ hls
    rw [List.length_append, List.length_singleton] at hlen
    obtain ⟨hg, hle⟩ := backtrackVal_le _ _ _ _ hva
    rw [List.length_drop] at hle
    have hg1 : 1 ≤ g'.length := by
      cases g' with
      | nil => exact absurd rfl hg
      | cons a b => simp
    omega
  · rw [if_neg hls] at hlab
    cases hlab

theorem findParamsF_succ (n : ℕ) (s : List Char) :
    findParamsF (n + 1) s =
      match matchParamAt s with
      | some (l, g, rest) => (l, g) :: findParamsF n rest
      | none => findParamsF n s.tail := rfl

theorem findParamsF_fuel (n : ℕ) (s : List Char) (h : s.length ≤ n) :
    findParamsF n s = findParams s := by
  induction n using Nat.strong_induction_on generalizing s with
  | _ n ih =>
    cases n with
    | zero =>
      cases s with
      | nil => rfl
      | cons c cs => simp at h
    | succ n =>
      cases s with
      | nil =>
        show findParamsF (n + 1) [] = findParamsF 0 []
        rw [findParamsF_succ, matchParamAt_nil]
        exact ih n (by omega) [] (by simp)
      | cons c cs =>
        have hcs : cs.length + 1 ≤ n + 1 := by simpa using h
        show findParamsF (n + 1) (c :: cs) = findParamsF (c :: cs).length (c :: cs)
        rw [List.length_cons, findParamsF_succ, findParamsF_succ]
        cases hm : matchParamAt (c :: cs) with
        | some p =>
          obtain ⟨l, g, rest⟩ := p
          have hlt := matchParamAt_some_lt _ _ _ _ hm
          rw [List.length_cons] at hlt
          show (l, g) :: findParamsF n rest = (l, g) :: findParamsF cs.length rest
          congr 1
          calc findParamsF n rest = findParams rest := ih n (by omega) rest (by omega)
            _ = findParamsF cs.length rest := (ih cs.length (by omega) rest (by omega)).symm
        | none =>
          show findParamsF n (c :: cs).tail = findParamsF cs.length (c :: cs).tail
          rw [show (c :: cs).tail = cs from rfl]
          calc findParamsF n cs = findParams cs := ih n (by omega) cs (by omega)
            _ = findParamsF cs.length cs := rfl

theorem findParams_cons_none (c : Char) (cs : List Char) (h : matchParamAt (c :: cs) = none) :
    findParams (c :: cs) = findParams cs := by
  show findParamsF (c :: cs).length (c :: cs) = _
  rw [List.length_cons, findParamsF_succ, h]
  rfl

theorem findParams_cons_some (s l g rest : List Char) (h : matchParamAt s = some (l, g, rest)) :
    findParams s = (l, g) :: findParams rest := by
  cases s with
  | nil => rw [matchParamAt_nil] at h; cases h
  | cons c cs =>
    have hlt := matchParamAt_some_lt _ _ _ _ h
    rw [List.length_cons] at hlt
    show findParamsF (c :: cs).length (c :: cs) = _
    rw [List.length_cons, findParamsF_succ, h]
    show (l, g) :: findParamsF cs.length rest = (l, g) :: findParams rest
    rw [findParamsF_fuel cs.length rest (by omega)]

theorem findParams_skip (xs ys : List Char) (h : ∀ c ∈ xs, labelHead c = false) :
    findParams (xs ++ ys) = findParams ys := by
  induction xs with
  | nil => rfl
  | cons x xs ih =>
    rw [List.cons_append,
      findParams_cons_none x (xs ++ ys) (matchParamAt_none x _ (h x (List.mem_cons_self _ _))),
      ih (fun c hc => h c (List.mem_cons_of_mem _ hc))]

theorem splitFullF_any_none (pat s : List Char) (h : splitOnce pat s = none) :
    ∀ f, splitFullF pat f s = [s] := by
  intro f
  cases f with
  | zero => rfl
  | succ f =>
    unfold splitFullF
    rw [h]

theorem splitFullF_succ (pat : List Char) (n : ℕ) (s : List Char) :
    splitFullF pat (n + 1) s =
      match splitOnce pat s with
      | none => [s]
      | some (a, b) => a :: splitFullF pat n b := rfl

theorem splitFullF_fuel (pat : List Char) (hpat : pat ≠ []) (n : ℕ) (s : List Char)
    (h : s.length ≤ n) : splitFullF pat n s = splitFullOn pat s := by
  induction n using Nat.strong_induction_on generalizing s with
  | _ n ih =>
    cases hsp : splitOnce pat s with
    | none =>
      show splitFullF pat n s = splitFullF pat s.length s
      rw [splitFullF_any_none pat s hsp, splitFullF_any_none pat s hsp]
    | some p =>
      obtain ⟨a, b⟩ := p
      have hshape := splitOnce_eq_append pat s a b hsp
      have hpatlen : 1 ≤ pat.length := by
        cases pat with
        | nil => exact absurd rfl hpat
        | cons p0 ps => simp
      have hblen : b.length + 1 ≤ s.length := by
        rw [hshape, List.length_append, List.length_append]
        omega
      obtain ⟨m, hm⟩ : ∃ m, n = m + 1 := ⟨n - 1, by omega⟩
      obtain ⟨m2, hm2⟩ : ∃ m2, s.length = m2 + 1 := ⟨s.length - 1, by omega⟩
      show splitFullF pat n s = splitFullF pat s.length s
      rw [hm, hm2, splitFullF_succ, splitFullF_succ, hsp]
      show a :: splitFullF pat m b = a :: splitFullF pat m2 b
      congr 1
      calc splitFullF pat m b = splitFullOn pat b := ih m (by omega) b (by omega)
        _ = splitFullF pat m2 b := (ih m2 (by omega) b (by omega)).symm

theorem splitFullOn_cons (pat s a b : List Char) (hpat : pat ≠ [])
    (h : splitOnce pat s = some (a, b)) : splitFullOn pat s = a :: splitFullOn pat b := by
  have hshape := splitOnce_eq_append pat s a b h
  have hblen : b.length + 1 ≤ s.length := by
    rw [hshape, List.length_append, List.length_append]
    cases pat with
    | nil => exact absurd rfl hpat
    | cons p0 ps => simp; omega
  obtain ⟨m, hm⟩ : ∃ m, s.length = m + 1 := ⟨s.length - 1, by omega⟩
  show splitFullF pat s.length s = _
  rw [hm, splitFullF_succ, h]
  show a :: splitFullF pat m b = a :: splitFullOn pat b
  rw [splitFullF_fuel pat hpat m b (by omega)]

theorem splitFullOn_none (pat s : List Char) (h : splitOnce pat s = none) :
    splitFullOn pat s = [s] :=
  splitFullF_any_none pat s h s.length

/-! Round-trip lemmas: a rendered labelled field is recovered by the
findall scanner. -/

theorem headD_of_head_opt (s : List Char) (c d : Char) (h : s.head? = some c) :
    s.headD d = c := by
  cases s with
  | nil => cases h
  | cons a t => injection h with h

theorem headD_append (xs ys : List Char) (d : Char) (h : xs ≠ []) :
    (xs ++ ys).headD d = xs.headD d := by
  cases xs with
  | nil => exact absurd rfl h
  | cons a t => rfl

theorem edgeSolid_parts (s : List Char) (h : edgeSolid s = true) :
    s ≠ [] ∧ isPySpace (s.headD 'x') = false ∧ isPySpace (s.reverse.headD 'x') = false := by
  unfold edgeSolid at h
  rw [Bool.and_eq_true, Bool.and_eq_true] at h
  obtain ⟨⟨he1, he2⟩, he3⟩ := h
  refine ⟨?_, ?_, ?_⟩
  · intro habs
    rw [habs] at he1
    exact absurd he1 (by decide)
  · cases hb : isPySpace (s.headD 'x')
    · rfl
    · rw [hb] at he2
      exact absurd he2 (by decide)
  · cases hb : isPySpace (s.reverse.headD 'x')
    · rfl
    · rw [hb] at he3
      exact absurd he3 (by decide)

theorem findSome?_pos {α β : Type} (f : α → Option β) (pre : List α) (a : α)
    (post : List α) (hpre : ∀ x ∈ pre, f x = none) (b : β) (hb : f a = some b) :
    List.findSome? f (pre ++ a :: post) = some b := by
  induction pre with
  | nil =>
    rw [List.nil_append, List.findSome?_cons, hb]
  | cons x xs ih =>
    rw [List.cons_append, List.findSome?_cons, hpre x (List.mem_cons_self _ _)]
    exact ih (fun y hy => hpre y (List.mem_cons_of_mem _ hy))

theorem matchParamAt_field (l v rest : List Char) (hl : l ∈ recLabels) (hv : v ≠ [])
    (hvh : ∀ c, v.head? = some c → isPySpace c = false ∧ c ≠ '\n')
    (hvn : ∀ c ∈ v, c ≠ '\n') (hrest : rest = [] ∨ rest.head? = some '\n') :
    matchParamAt (l ++ ':' :: ' ' :: (v ++ rest)) = some (l, v, rest) := by
  have hva := valueAfter_space v rest hv hvh hvn hrest
  simp only [recLabels, List.mem_cons, List.not_mem_nil, or_false] at hl
  rcases hl with rfl | rfl | rfl | rfl | rfl | rfl | rfl
  · unfold matchParamAt
    rw [show recLabels = [] ++
      (("Truk").data) :: [(("Ekskavator").data), (("Operator").data), (("Cuaca").data), (("Prediksi").data), (("Selisih").data), (("Alasan").data)] from rfl]
    refine findSome?_pos _ _ _ _ ?_ _ ?_
    · intro x hx
      exact absurd hx (List.not_mem_nil x)
    · show (valueAfter (' ' :: (v ++ rest))).map
        (fun p => ((("Truk").data), p.1, p.2)) = some ((("Truk").data), v, rest)
      rw [hva]
      rfl
  · unfold matchParamAt
    rw [show recLabels = [(("Truk").data)] ++
      (("Ekskavator").data) :: [(("Operator").data), (("Cuaca").data), (("Prediksi").data), (("Selisih").data), (("Alasan").data)] from rfl]
    refine findSome?_pos _ _ _ _ ?_ _ ?_
    · intro x hx
      fin_cases hx <;> rfl
    · show (valueAfter (' ' :: (v ++ rest))).map
        (fun p => ((("Ekskavator").data), p.1, p.2)) = some ((("Ekskavator").data), v, rest)
      rw [hva]
      rfl
  · unfold matchParamAt
    rw [show recLabels = [(("Truk").data), (("Ekskavator").data)] ++
      (("Operator").data) :: [(("Cuaca").data), (("Prediksi").data), (("Selisih").data), (("Alasan").data)] from rfl]
    refine findSome?_pos _ _ _ _ ?_ _ ?_
    · intro x hx
      fin_cases hx <;> rfl
    · show (valueAfter (' ' :: (v ++ rest))).map
        (fun p => ((("Operator").data), p.1, p.2)) = some ((("Operator").data), v, rest)
      rw [hva]
      rfl
  · unfold matchParamAt
    rw [show recLabels = [(("Truk").data), (("Ekskavator").data), (("Operator").data)] ++
      (("Cuaca").data) :: [(("Prediksi").data), (("Selisih").data), (("Alasan").data)] from rfl]
    refine findSome?_pos _ _ _ _ ?_ _ ?_
    · intro x hx
      fin_cases hx <;> rfl
    · show (valueAfter (' ' :: (v ++ rest))).map
        (fun p => ((("Cuaca").data), p.1, p.2)) = some ((("Cuaca").data), v, rest)
      rw [hva]
      rfl
  · unfold matchParamAt
    rw [show recLabels = [(("Truk").data), (("Ekskavator").data), (("Operator").data), (("Cuaca").data)] ++
      (("Prediksi").data) :: [(("Selisih").data), (("Alasan").data)] from rfl]
    refine findSome?_pos _ _ _ _ ?_ _ ?_
    · intro x hx
      fin_cases hx <;> rfl
    · show (valueAfter (' ' :: (v ++ rest))).map
        (fun p => ((("Prediksi").data), p.1, p.2)) = some ((("Prediksi").data), v, rest)
      rw [hva]
      rfl
  · unfold matchParamAt
    rw [show recLabels = [(("Truk").data), (("Ekskavator").data), (("Operator").data), (("Cuaca").data), (("Prediksi").data)] ++
      (("Selisih").data) :: [(("Alasan").data)] from rfl]
    refine findSome?_pos _ _ _ _ ?_ _ ?_
    · intro x hx
      fin_cases hx <;> rfl
    · show (valueAfter (' ' :: (v ++ rest))).map
        (fun p => ((("Selisih").data), p.1, p.2)) = some ((("Selisih").data), v, rest)
      rw [hva]
      rfl
  · unfold matchParamAt
    rw [show recLabels = [(("Truk").data), (("Ekskavator").data), (("Operator").data), (("Cuaca").data), (("Prediksi").data), (("Selisih").data)] ++
      (("Alasan").data) :: [] from rfl]
    refine findSome?_pos _ _ _ _ ?_ _ ?_
    · intro x hx
      fin_cases hx <;> rfl
    · show (valueAfter (' ' :: (v ++ rest))).map
        (fun p => ((("Alasan").data), p.1, p.2)) = some ((("Alasan").data), v, rest)
      rw [hva]
      rfl

theorem findParams_fields (fs : List (List Char × List Char))
    (hfs : ∀ f ∈ fs, f.1 ∈ recLabels ∧ f.2 ≠ [] ∧
      (∀ c, f.2.head? = some c → isPySpace c = false ∧ c ≠ '\n') ∧ (∀ c ∈ f.2, c ≠ '\n')) :
    findParams (renderFields fs) = fs := by
  induction fs with
  | nil => rfl
  | cons f fs ih =>
    obtain ⟨hl, hv, hvh, hvn⟩ := hfs f (List.mem_cons_self _ _)
    have hrest : renderFields fs = [] ∨ (renderFields fs).head? = some '\n' := by
      cases fs with
      | nil => exact Or.inl rfl
      | cons f2 fs2 => exact Or.inr rfl
    have hshape : renderFields (f :: fs) =
        '\n' :: (f.1 ++ ':' :: ' ' :: (f.2 ++ renderFields fs)) := by
      show renderField f.1 f.2 ++ renderFields fs = _
      unfold renderField
      simp
    rw [hshape,
      findParams_cons_none '\n' _ (matchParamAt_none '\n' _ (by decide)),
      findParams_cons_some _ f.1 f.2 (renderFields fs)
        (matchParamAt_field f.1 f.2 (renderFields fs) hl hv hvh hvn hrest),
      ih (fun g hg => hfs g (List.mem_cons_of_mem _ hg))]

/- The seven fields rendered for a good recommendation satisfy the shape
conditions of the scanner lemmas. -/
theorem recFields_good (r : RecInput) (hr : GoodRec r) :
    ∀ f ∈ recFields r, f.1 ∈ recLabels ∧ f.2 ≠ [] ∧
      (∀ c, f.2.head? = some c → isPySpace c = false ∧ c ≠ '\n') ∧ (∀ c ∈ f.2, c ≠ '\n') := by
  obtain ⟨htitle, hrat, hedge, hw⟩ := hr
  have hdigs : ∀ (s : List Char), s ≠ [] → (∀ c ∈ s, isDigitOrDot c = true) →
      s ≠ [] ∧ (∀ c, s.head? = some c → isPySpace c = false ∧ c ≠ '\n') ∧
        (∀ c ∈ s, c ≠ '\n') :=
    fun s hne hdd =>
      ⟨hne,
       fun c hc => ⟨not_space_of_dd c (hdd c (List.mem_of_mem_head? hc)),
         bfalse_ne c '\n' (hdd c (List.mem_of_mem_head? hc)) (by decide)⟩,
       fun c hc => bfalse_ne c '\n' (hdd c hc) (by decide)⟩
  intro f hf
  simp only [recFields, List.mem_cons, List.not_mem_nil, or_false] at hf
  rcases hf with rfl | rfl | rfl | rfl | rfl | rfl | rfl
  · exact ⟨show (("Truk").data) ∈ recLabels by decide, hdigs _ (natStr_ne_nil _)
      (fun c hc => dd_of_digit c (natStr_digits _ c hc))⟩
  · exact ⟨show (("Ekskavator").data) ∈ recLabels by decide, hdigs _ (natStr_ne_nil _)
      (fun c hc => dd_of_digit c (natStr_digits _ c hc))⟩
  · exact ⟨show (("Operator").data) ∈ recLabels by decide, hdigs _ (natStr_ne_nil _)
      (fun c hc => dd_of_digit c (natStr_digits _ c hc))⟩
  · refine ⟨show (("Cuaca").data) ∈ recLabels by decide, hdigs _ (by simp) (fun c hc => ?_)⟩
    rw [List.mem_singleton] at hc
    subst hc
    exact dd_of_digit _ (digitChar_isDigit _ (by omega))
  · exact ⟨show (("Prediksi").data) ∈ recLabels by decide,
      hdigs _ (renderDec_ne_nil _) (renderDec_dd _)⟩
  · exact ⟨show (("Selisih").data) ∈ recLabels by decide,
      hdigs _ (renderDec_ne_nil _) (renderDec_dd _)⟩
  · obtain ⟨hratne, hh0, hl0⟩ := edgeSolid_parts _ hedge
    refine ⟨show (("Alasan").data) ∈ recLabels by decide, hratne, ?_, ?_⟩
    · intro c hc
      have hgc := List.all_eq_true.mp hrat c (List.mem_of_mem_head? hc)
      refine ⟨?_, bfalse_ne c '\n' hgc (by decide)⟩
      rw [← headD_of_head_opt r.rationale c 'x' hc]
      exact hh0
    · intro c hc
      exact bfalse_ne c '\n' (List.all_eq_true.mp hrat c hc) (by decide)

/- One assignment step of the loop, per label; the int-coerced steps are
conditional on the coercion not raising. -/
theorem buildDataFrom_cons (d : RecData) (p : List Char × List Char) (d2 : RecData)
    (h : applyParam d p = some d2) (ps : List (List Char × List Char)) :
    buildDataFrom d (p :: ps) = buildDataFrom d2 ps := by
  show (match applyParam d p with
    | none => none
    | some x => buildDataFrom x ps) = buildDataFrom d2 ps
  rw [h]

theorem applyParam_truk (d : RecData) (v : List Char) (x : FieldVal)
    (h : coerceNum (cleanValue v) = some x) :
    applyParam d ((("Truk").data), v) = some { d with trucks := some x } := by
  show (coerceNum (cleanValue v)).map (fun y => ({ d with trucks := some y } : RecData)) =
    some ({ d with trucks := some x } : RecData)
  rw [h]
  rfl

theorem applyParam_eks (d : RecData) (v : List Char) (x : FieldVal)
    (h : coerceNum (cleanValue v) = some x) :
    applyParam d ((("Ekskavator").data), v) = some { d with excavators := some x } := by
  show (coerceNum (cleanValue v)).map (fun y => ({ d with excavators := some y } : RecData)) =
    some ({ d with excavators := some x } : RecData)
  rw [h]
  rfl

theorem applyParam_op (d : RecData) (v : List Char) (x : FieldVal)
    (h : coerceNum (cleanValue v) = some x) :
    applyParam d ((("Operator").data), v) = some { d with operators := some x } := by
  show (coerceNum (cleanValue v)).map (fun y => ({ d with operators := some y } : RecData)) =
    some ({ d with operators := some x } : RecData)
  rw [h]
  rfl

theorem applyParam_cuaca (d : RecData) (v : List Char) :
    applyParam d ((("Cuaca").data), v) =
      some { d with weather := some (.strV (cleanValue v)) } := rfl

theorem applyParam_prediksi (d : RecData) (v : List Char) :
    applyParam d ((("Prediksi").data), v) =
      some { d with predicted_tonnage := some (coerceFloat (cleanValue v)) } := rfl

theorem applyParam_selisih (d : RecData) (v : List Char) :
    applyParam d ((("Selisih").data), v) =
      some { d with difference_from_target := some (coerceFloat (cleanValue v)) } := rfl

theorem applyParam_alasan (d : RecData) (v : List Char) :
    applyParam d ((("Alasan").data), v) =
      some { d with rationale := some (cleanValue v) } := rfl

/- Folding the extracted pairs of a rendered recommendation through the
assignment loop raises nothing and fills exactly the seven dict entries. -/
theorem buildData_recFields (r : RecInput) (hw : r.weather < 3) :
    buildData (recFields r) = some
      { trucks := some (.intV (r.trucks : ℤ)),
        excavators := some (.intV (r.excavators : ℤ)),
        operators := some (.intV (r.operators : ℤ)),
        weather := some (.strV [digitChar r.weather]),
        predicted_tonnage := some (.floatV r.predicted.val),
        difference_from_target := some (.floatV r.difference.val),
        rationale := some (cleanValue r.rationale) } := by
  have hcw : cleanValue [digitChar r.weather] = [digitChar r.weather] :=
    cleanValue_dd _ (fun c hc => by
      rw [List.mem_singleton] at hc
      subst hc
      exact dd_of_digit _ (digitChar_isDigit _ (by omega)))
  show buildDataFrom {} (recFields r) = _
  unfold recFields
  rw [buildDataFrom_cons _ _ _ (applyParam_truk _ _ _ (coerceNum_natStr r.trucks)),
    buildDataFrom_cons _ _ _ (applyParam_eks _ _ _ (coerceNum_natStr r.excavators)),
    buildDataFrom_cons _ _ _ (applyParam_op _ _ _ (coerceNum_natStr r.operators)),
    buildDataFrom_cons _ _ _ (applyParam_cuaca _ _),
    buildDataFrom_cons _ _ _ (applyParam_prediksi _ _),
    buildDataFrom_cons _ _ _ (applyParam_selisih _ _),
    buildDataFrom_cons _ _ _ (applyParam_alasan _ _),
    hcw, coerceFloat_renderDec r.predicted, coerceFloat_renderDec r.difference]
  rfl

/- Stripping a rendered block removes exactly the framing newlines. -/
theorem stripChars_wrap (core : List Char) (hne : core ≠ [])
    (hh : isPySpace (core.headD 'x') = false)
    (hl : isPySpace (core.reverse.headD 'x') = false) :
    stripChars ('\n' :: (core ++ ['\n'])) = core := by
  unfold stripChars
  rw [List.dropWhile_cons, if_pos (by decide)]
  rw [dropWhile_eq_self_of_head isPySpace (core ++ ['\n']) ?h1]
  case h1 =>
    intro c hc
    cases core with
    | nil => exact absurd rfl hne
    | cons a t =>
      have hc2 : (a :: (t ++ ['\n'])).head? = some c := hc
      injection hc2 with hc2
      subst hc2
      exact hh
  rw [show (core ++ ['\n']).reverse = '\n' :: core.reverse from by simp]
  rw [List.dropWhile_cons, if_pos (by decide)]
  rw [dropWhile_eq_self_of_head isPySpace core.reverse ?h2]
  case h2 =>
    intro c hc
    rw [← headD_of_head_opt core.reverse c 'x' hc]
    exact hl
  rw [List.reverse_reverse]

theorem renderRecCore_head (i : ℕ) (r : RecInput) : (renderRecCore i r).headD 'x' = 'R' := rfl

theorem renderRecCore_ne_nil (i : ℕ) (r : RecInput) : renderRecCore i r ≠ [] := by
  intro h
  have h2 : (renderRecCore i r).headD 'x' = 'x' := by
    rw [h]
    rfl
  rw [renderRecCore_head] at h2
  exact absurd h2 (by decide)

/- The rendered core of a recommendation ends in its rationale. -/
theorem renderRecCore_rev_head (i : ℕ) (r : RecInput) (hratne : r.rationale ≠ []) :
    (renderRecCore i r).reverse.headD 'x' = r.rationale.reverse.headD 'x' := by
  have hshape : renderRecCore i r =
      ((("Rekomendasi ").data ++ natStr i ++ ':' :: ' ' :: r.title) ++
        ('\n' :: ((("Truk").data) ++ ':' :: ' ' :: natStr r.trucks)) ++
        ('\n' :: ((("Ekskavator").data) ++ ':' :: ' ' :: natStr r.excavators)) ++
        ('\n' :: ((("Operator").data) ++ ':' :: ' ' :: natStr r.operators)) ++
        ('\n' :: ((("Cuaca").data) ++ ':' :: ' ' :: [digitChar r.weather])) ++
        ('\n' :: ((("Prediksi").data) ++ ':' :: ' ' :: renderDec r.predicted)) ++
        ('\n' :: ((("Selisih").data) ++ ':' :: ' ' :: renderDec r.difference)) ++
        ('\n' :: ((("Alasan").data) ++ [':', ' ']))) ++ r.rationale := by
    simp [renderRecCore, renderFields, recFields, renderField, List.append_assoc]
  rw [hshape, List.reverse_append]
  refine headD_append _ _ 'x' ?_
  simp [List.reverse_eq_nil_iff]
  exact hratne

/-! Character conditions over rendered text, for the delimiter splits and
label searches. -/

theorem forall_mem_append_c {P : Char → Prop} {xs ys : List Char}
    (hx : ∀ c ∈ xs, P c) (hy : ∀ c ∈ ys, P c) : ∀ c ∈ xs ++ ys, P c := by
  intro c hc
  rcases List.mem_append.mp hc with hc | hc
  · exact hx c hc
  · exact hy c hc

theorem forall_mem_cons_c {P : Char → Prop} {x : Char} {ys : List Char}
    (hx : P x) (hy : ∀ c ∈ ys, P c) : ∀ c ∈ x :: ys, P c := by
  intro c hc
  rcases List.mem_cons.mp hc with rfl | hc
  · exact hx
  · exact hy c hc

theorem renderFields_chars (P : Char → Prop) (hn : P '\n') (hcol : P ':') (hsp : P ' ')
    (fs : List (List Char × List Char))
    (h : ∀ f ∈ fs, (∀ c ∈ f.1, P c) ∧ (∀ c ∈ f.2, P c)) :
    ∀ c ∈ renderFields fs, P c := by
  induction fs with
  | nil =>
    intro c hc
    exact absurd hc (List.not_mem_nil c)
  | cons f fs ih =>
    obtain ⟨h1, h2⟩ := h f (List.mem_cons_self _ _)
    have hhd : ∀ c ∈ '\n' :: (f.1 ++ ':' :: ' ' :: f.2), P c :=
      forall_mem_cons_c hn (forall_mem_append_c h1
        (forall_mem_cons_c hcol (forall_mem_cons_c hsp h2)))
    intro c hc
    have hc2 : c ∈ ('\n' :: (f.1 ++ ':' :: ' ' :: f.2)) ++ renderFields fs := hc
    rcases List.mem_append.mp hc2 with hc2 | hc2
    · exact hhd c hc2
    · exact ih (fun g hg => h g (List.mem_cons_of_mem _ hg)) c hc2

/- No character of a rendered recommendation core is a dash, so the
delimiter split severs exactly at the START_RECOMMENDATION tags. -/
theorem renderRecCore_no_dash (i : ℕ) (r : RecInput) (hr : GoodRec r) :
    ∀ c ∈ renderRecCore i r, c ≠ '-' := by
  obtain ⟨htitle, hrat, hedge, hw⟩ := hr
  have hfields : ∀ c ∈ renderFields (recFields r), c ≠ '-' := by
    refine renderFields_chars (fun x => x ≠ '-') (by decide) (by decide) (by decide) _ ?_
    intro f hf
    simp only [recFields, List.mem_cons, List.not_mem_nil, or_false] at hf
    rcases hf with rfl | rfl | rfl | rfl | rfl | rfl | rfl
    · exact ⟨(by decide : ∀ x ∈ ("Truk").data, x ≠ '-'),
        fun x hx => bfalse_ne x '-' (dd_of_digit x (natStr_digits _ x hx)) (by decide)⟩
    · exact ⟨(by decide : ∀ x ∈ ("Ekskavator").data, x ≠ '-'),
        fun x hx => bfalse_ne x '-' (dd_of_digit x (natStr_digits _ x hx)) (by decide)⟩
    · exact ⟨(by decide : ∀ x ∈ ("Operator").data, x ≠ '-'),
        fun x hx => bfalse_ne x '-' (dd_of_digit x (natStr_digits _ x hx)) (by decide)⟩
    · refine ⟨(by decide : ∀ x ∈ ("Cuaca").data, x ≠ '-'), fun x hx => ?_⟩
      rw [List.mem_singleton] at hx
      subst hx
      exact bfalse_ne _ '-' (digitChar_isDigit _ (by omega)) (by decide)
    · exact ⟨(by decide : ∀ x ∈ ("Prediksi").data, x ≠ '-'),
        fun x hx => bfalse_ne x '-' (renderDec_dd _ x hx) (by decide)⟩
    · exact ⟨(by decide : ∀ x ∈ ("Selisih").data, x ≠ '-'),
        fun x hx => bfalse_ne x '-' (renderDec_dd _ x hx) (by decide)⟩
    · exact ⟨(by decide : ∀ x ∈ ("Alasan").data, x ≠ '-'),
        fun x hx => bfalse_ne x '-' (List.all_eq_true.mp hrat x hx) (by decide)⟩
  show ∀ c ∈ (("Rekomendasi ").data ++ natStr i ++ ':' :: ' ' :: r.title) ++
      renderFields (recFields r), c ≠ '-'
  refine forall_mem_append_c (forall_mem_append_c (forall_mem_append_c
    (by decide) ?_) (forall_mem_cons_c (by decide)
      (forall_mem_cons_c (by decide) ?_))) hfields
  · exact fun x hx => bfalse_ne x '-' (dd_of_digit x (natStr_digits _ x hx)) (by decide)
  · exact fun x hx => bfalse_ne x '-' (List.all_eq_true.mp htitle x hx) (by decide)

/- A rendered recommendation block parses back without raising: the record
is kept and its six numeric dict entries match the input data. -/
theorem processBlock_rendered (i : ℕ) (r : RecInput) (hr : GoodRec r) :
    ∃ rec : RecRecord, processBlock ('\n' :: (renderRecCore i r ++ ['\n'])) = .ok (some rec) ∧
      FieldsMatch rec r := by
  obtain ⟨htitle, hrat, hedge, hw⟩ := hr
  obtain ⟨hratne, hh0, hl0⟩ := edgeSolid_parts _ hedge
  have hstrip : stripChars ('\n' :: (renderRecCore i r ++ ['\n'])) = renderRecCore i r := by
    refine stripChars_wrap _ (renderRecCore_ne_nil i r) ?_ ?_
    · rw [renderRecCore_head]
      decide
    · rw [renderRecCore_rev_head i r hratne]
      exact hl0
  have hpre : ∀ c ∈ ("Rekomendasi ").data ++ natStr i ++ ':' :: ' ' :: r.title,
      labelHead c = false :=
    forall_mem_append_c (forall_mem_append_c (by decide)
        (fun x hx => not_labelHead_of_dd x (dd_of_digit x (natStr_digits _ x hx))))
      (forall_mem_cons_c (by decide) (forall_mem_cons_c (by decide)
        (fun x hx => not_labelHead_of_good x (List.all_eq_true.mp htitle x hx))))
  have hfp : findParams (renderRecCore i r) = recFields r := by
    unfold renderRecCore
    rw [findParams_skip _ _ hpre]
    exact findParams_fields _ (recFields_good r ⟨htitle, hrat, hedge, hw⟩)
  have hne2 : ¬(renderRecCore i r).isEmpty = true := by
    intro habs
    apply renderRecCore_ne_nil i r
    cases hcase : renderRecCore i r with
    | nil => rfl
    | cons x xs =>
      rw [hcase] at habs
      exact Bool.noConfusion habs
  simp only [processBlock]
  rw [hstrip, if_neg hne2, hfp]
  simp only [buildData_recFields r hw]
  rw [if_pos (dataSize_gt_one _)]
  exact ⟨_, rfl, rfl, rfl, rfl, rfl, rfl, rfl⟩

theorem Dec.val_ne_zero (d : Dec) (h : 0 < d.m) : d.val ≠ 0 := by
  unfold Dec.val
  intro habs
  rw [div_eq_zero_iff] at habs
  rcases habs with h1 | h2
  · rw [Nat.cast_eq_zero] at h1
    omega
  · exact absurd h2 (by positivity)

/- The rendered analysis paragraph, shaped around each of its three
labelled lines. -/
theorem renderAnalysis_shape_tte (a : AnalysisInput) :
    renderAnalysis a = (a.analysisText ++ ['\n']) ++
      (TTEc ++ ':' :: ' ' :: (natStr a.target ++ ('\n' :: (PKc ++ ':' :: ' ' ::
        (renderDec a.prediction ++ ('\n' :: (SKc ++ ':' :: ' ' ::
          (renderDec a.difference ++ ['\n'])))))))) := by
  simp [renderAnalysis, renderFields, renderField, List.append_assoc]

theorem renderAnalysis_shape_pk (a : AnalysisInput) :
    renderAnalysis a = (a.analysisText ++ '\n' :: (TTEc ++ ':' :: ' ' ::
        (natStr a.target ++ ['\n']))) ++
      (PKc ++ ':' :: ' ' :: (renderDec a.prediction ++ ('\n' :: (SKc ++ ':' :: ' ' ::
        (renderDec a.difference ++ ['\n']))))) := by
  simp [renderAnalysis, renderFields, renderField, List.append_assoc]

theorem renderAnalysis_shape_sk (a : AnalysisInput) :
    renderAnalysis a = (a.analysisText ++ '\n' :: (TTEc ++ ':' :: ' ' ::
        (natStr a.target ++ '\n' :: (PKc ++ ':' :: ' ' ::
          (renderDec a.prediction ++ ['\n']))))) ++
      (SKc ++ ':' :: ' ' :: (renderDec a.difference ++ ['\n'])) := by
  simp [renderAnalysis, renderFields, renderField, List.append_assoc]

theorem searchLabelNum_tte (a : AnalysisInput) (htext : goodText a.analysisText = true) :
    searchLabelNum TTEc (renderAnalysis a) = some (natStr a.target) := by
  have hskip : ∀ c ∈ a.analysisText ++ ['\n'], c ≠ 'T' :=
    forall_mem_append_c
      (fun c hc => bfalse_ne c 'T' (List.all_eq_true.mp htext c hc) (by decide))
      (by decide)
  rw [renderAnalysis_shape_tte, searchLabelNum_skip TTEc _ _ 'T' rfl hskip]
  exact searchLabelNum_at TTEc (natStr a.target) _ (by decide) (natStr_ne_nil _)
    (fun c hc => dd_of_digit c (natStr_digits _ c hc)) (Or.inr rfl)

theorem searchLabelNum_pk (a : AnalysisInput) (htext : goodText a.analysisText = true) :
    searchLabelNum PKc (renderAnalysis a) = some (renderDec a.prediction) := by
  have hskip : ∀ c ∈ a.analysisText ++ '\n' :: (TTEc ++ ':' :: ' ' ::
      (natStr a.target ++ ['\n'])), c ≠ 'P' :=
    forall_mem_append_c
      (fun c hc => bfalse_ne c 'P' (List.all_eq_true.mp htext c hc) (by decide))
      (forall_mem_cons_c (by decide) (forall_mem_append_c (by decide)
        (forall_mem_cons_c (by decide) (forall_mem_cons_c (by decide)
          (forall_mem_append_c
            (fun c hc => bfalse_ne c 'P' (dd_of_digit c (natStr_digits _ c hc)) (by decide))
            (by decide))))))
  rw [renderAnalysis_shape_pk, searchLabelNum_skip PKc _ _ 'P' rfl hskip]
  exact searchLabelNum_at PKc (renderDec a.prediction) _ (by decide) (renderDec_ne_nil _)
    (renderDec_dd _) (Or.inr rfl)

theorem searchLabelNum_sk (a : AnalysisInput) (htext : goodText a.analysisText = true) :
    searchLabelNum SKc (renderAnalysis a) = some (renderDec a.difference) := by
  have hskip : ∀ c ∈ a.analysisText ++ '\n' :: (TTEc ++ ':' :: ' ' ::
      (natStr a.target ++ '\n' :: (PKc ++ ':' :: ' ' ::
        (renderDec a.prediction ++ ['\n'])))), c ≠ 'S' :=
    forall_mem_append_c
      (fun c hc => bfalse_ne c 'S' (List.all_eq_true.mp htext c hc) (by decide))
      (forall_mem_cons_c (by decide) (forall_mem_append_c (by decide)
        (forall_mem_cons_c (by decide) (forall_mem_cons_c (by decide)
          (forall_mem_append_c
            (fun c hc => bfalse_ne c 'S' (dd_of_digit c (natStr_digits _ c hc)) (by decide))
            (forall_mem_cons_c (by decide) (forall_mem_append_c (by decide)
              (forall_mem_cons_c (by decide) (forall_mem_cons_c (by decide)
                (forall_mem_append_c
                  (fun c hc => bfalse_ne c 'S' (renderDec_dd _ c hc) (by decide))
                  (by decide)))))))))))
  rw [renderAnalysis_shape_sk, searchLabelNum_skip SKc _ _ 'S' rfl hskip]
  exact searchLabelNum_at SKc (renderDec a.difference) _ (by decide) (renderDec_ne_nil _)
    (renderDec_dd _) (Or.inr rfl)

/- No character of the rendered analysis paragraph is a dash, so the
END_ANALYSIS split severs exactly at the rendered tag. -/
theorem renderAnalysis_no_dash (a : AnalysisInput) (htext : goodText a.analysisText = true) :
    ∀ c ∈ renderAnalysis a, c ≠ '-' := by
  have hfields : ∀ c ∈ renderFields [(TTEc, natStr a.target), (PKc, renderDec a.prediction),
      (SKc, renderDec a.difference)], c ≠ '-' := by
    refine renderFields_chars (fun x => x ≠ '-') (by decide) (by decide) (by decide) _ ?_
    intro f hf
    simp only [List.mem_cons, List.not_mem_nil, or_false] at hf
    rcases hf with rfl | rfl | rfl
    · exact ⟨(by decide : ∀ x ∈ TTEc, x ≠ '-'),
        fun x hx => bfalse_ne x '-' (dd_of_digit x (natStr_digits _ x hx)) (by decide)⟩
    · exact ⟨(by decide : ∀ x ∈ PKc, x ≠ '-'),
        fun x hx => bfalse_ne x '-' (renderDec_dd _ x hx) (by decide)⟩
    · exact ⟨(by decide : ∀ x ∈ SKc, x ≠ '-'),
        fun x hx => bfalse_ne x '-' (renderDec_dd _ x hx) (by decide)⟩
  show ∀ c ∈ (a.analysisText ++ renderFields [(TTEc, natStr a.target),
      (PKc, renderDec a.prediction), (SKc, renderDec a.difference)]) ++ ['\n'], c ≠ '-'
  exact forall_mem_append_c (forall_mem_append_c
    (fun c hc => bfalse_ne c '-' (List.all_eq_true.mp htext c hc) (by decide)) hfields)
    (by decide)

/- Splitting the rendered recommendation tail on the START tag and running
the block loop raises nothing and reproduces the list of recommendations,
field for field. -/
theorem recs_roundtrip (rs : List RecInput) (i : ℕ) (h : ∀ r ∈ rs, GoodRec r) :
    ∃ recs : List RecRecord,
      processBlocks (splitFullOn STARTRc (renderRecs i rs)) = .ok recs ∧
      List.Forall₂ FieldsMatch recs rs := by
  induction rs generalizing i with
  | nil =>
    have hnone : splitOnce STARTRc ([] : List Char) = none := rfl
    rw [show renderRecs i [] = [] from rfl, splitFullOn_none _ _ hnone]
    exact ⟨[], rfl, List.Forall₂.nil⟩
  | cons r rs ih =>
    have hr := h r (List.mem_cons_self _ _)
    obtain ⟨rec, hpb, hfm⟩ := processBlock_rendered i r hr
    obtain ⟨recs, hok, hfa⟩ := ih (i + 1) (fun x hx => h x (List.mem_cons_of_mem _ hx))
    have hnodash : ∀ c ∈ '\n' :: (renderRecCore i r ++ ['\n']), c ≠ '-' :=
      forall_mem_cons_c (by decide)
        (forall_mem_append_c (renderRecCore_no_dash i r hr) (by decide))
    have hshape : renderRecs i (r :: rs) =
        ('\n' :: (renderRecCore i r ++ ['\n'])) ++ (STARTRc ++ renderRecs (i + 1) rs) := by
      show '\n' :: (renderRecCore i r ++ '\n' :: (STARTRc ++ renderRecs (i + 1) rs)) = _
      simp
    have hsp : splitOnce STARTRc (renderRecs i (r :: rs)) =
        some ('\n' :: (renderRecCore i r ++ ['\n']), renderRecs (i + 1) rs) := by
      rw [hshape]
      exact splitOnce_prefix STARTRc _ _ '-' rfl hnodash
    refine ⟨rec :: recs, ?_, List.Forall₂.cons hfm hfa⟩
    rw [splitFullOn_cons _ _ _ _ (by decide) hsp]
    simp only [processBlocks, hpb, hok]
    rfl

/-- C8: Round-trip format property. For every well-formed AnalysisResult —
positive integer target, prediction with positive mantissa, and
recommendations whose trucks/excavators/operators are naturals, whose
weather lies in the 0/1/2 enum, whose prediction and difference are finite
decimals, and whose title and rationale are single-line delimiter-free
prose with a non-empty rationale carrying no edge whitespace — rendering
it into the Strict Response Format of spec section 6 and applying
parse_agent_response to the rendered text succeeds and reproduces the
original numeric values (target tonnage, initial prediction, initial
difference) and the recommendation count and order, each parsed record
matching its source recommendation's six numeric dict fields, with the
weather enum value reproduced as its one-digit numeral string. -/
theorem c8_round_trip (a : AnalysisInput) (h : WellFormed a) :
    ∃ res : ParseOk, parse_agent_response (renderAnalysisResult a) = .ok res ∧
      res.target_tonnage = (a.target : ℤ) ∧
      res.initial_prediction = a.prediction.val ∧
      res.initial_difference = a.difference.val ∧
      res.recommendations.length = a.recs.length ∧
      List.Forall₂ FieldsMatch res.recommendations a.recs := by
  obtain ⟨htext, htgt, hpm, hrecs⟩ := h
  have hsplit : splitOnce ENDAc (renderAnalysisResult a) =
      some (renderAnalysis a, renderRecs 1 a.recs) := by
    unfold renderAnalysisResult
    rw [List.append_assoc]
    exact splitOnce_prefix ENDAc _ _ '-' rfl (renderAnalysis_no_dash a htext)
  have htok1 : tokFloat? (searchLabelNum PKc (renderAnalysis a)) = some a.prediction.val := by
    rw [searchLabelNum_pk a htext]
    exact decCore?_renderDec _
  have htok2 : tokInt? (searchLabelNum TTEc (renderAnalysis a)) = some (a.target : ℤ) := by
    rw [searchLabelNum_tte a htext]
    show (decCore? (natStr a.target)).map ratTrunc = some (a.target : ℤ)
    rw [decCore?_natStr]
    show some (ratTrunc ((a.target : ℕ) : ℚ)) = some ((a.target : ℕ) : ℤ)
    rw [ratTrunc_natCast]
  have htok3 : tokFloat? (searchLabelNum SKc (renderAnalysis a)) = some a.difference.val := by
    rw [searchLabelNum_sk a htext]
    exact decCore?_renderDec _
  have hno0 : ¬((a.target : ℤ) = 0 ∨ a.prediction.val = 0) := by
    rintro (h1 | h2)
    · omega
    · exact Dec.val_ne_zero a.prediction hpm h2
  obtain ⟨recs, hok, hfa⟩ := recs_roundtrip a.recs 1 hrecs
  refine ⟨⟨stripChars (subLabels (renderAnalysis a)), a.prediction.val, (a.target : ℤ),
      a.difference.val, recs⟩,
    ?_, rfl, rfl, rfl, hfa.length_eq, hfa⟩
  show parse_agent_response (renderAnalysisResult a) = _
  simp only [parse_agent_response, hsplit, htok1, htok2, htok3, hok]
  rw [if_neg hno0]

theorem c8_round_trip_witness :
    WellFormed c8Example ∧
      ∃ res : ParseOk, parse_agent_response (renderAnalysisResult c8Example) = .ok res ∧
        res.target_tonnage = (c8Example.target : ℤ) ∧
        res.initial_prediction = c8Example.prediction.val ∧
        res.initial_difference = c8Example.difference.val ∧
        res.recommendations.length = c8Example.recs.length ∧
        List.Forall₂ FieldsMatch res.recommendations c8Example.recs :=
  ⟨by decide, c8_round_trip c8Example (by decide)⟩
